import Mathlib

/-!
Verification of the `bvc` buildout version checker.

The development shallowly embeds the two source components:

* `VersionsConfigParser` (a `RawConfigParser` subclass with `optionxform = str`
  and `indentation = 24`): the Python 2.7 `ConfigParser._read` line machine and
  the custom `write_section` are modelled on `List Char` ("PyStr") so that line
  splitting, stripping and regex matching can be reasoned about directly.
* `VersionsChecker`: `parse_versions`, `include_exclude_versions`,
  `fetch_last_versions` / `fetch_last_version` (with `distutils`'
  `LooseVersion` comparison) and `find_updates`, modelled on `String`
  association lists that stand for the `OrderedDict`s of the source.

Mutable-dict behaviour (`d[k] = v`, `del d[k]`, `OrderedDict(pairs)`) is
modelled by order-preserving association-list operations, and the aliasing
behaviour of `include_exclude_versions` is additionally modelled on an
explicit heap of dictionaries.
-/

/-! ### Python string primitives (on `List Char`) -/

/-- Python strings, as lists of characters. -/
abbrev PyStr := List Char

/-- Python `str.isspace` for the ASCII whitespace characters
(`' '`, `'\t'`, `'\n'`, `'\r'`, `'\x0b'`, `'\x0c'`). -/
def isPySpace (c : Char) : Bool :=
  c == ' ' || c == '\t' || c == '\n' || c == '\r' || c == '\x0b' || c == '\x0c'

/-- Python `str.lstrip()`. -/
def pyLstrip (l : PyStr) : PyStr := l.dropWhile isPySpace

/-- Python `str.rstrip()`. -/
def pyRstrip (l : PyStr) : PyStr := (l.reverse.dropWhile isPySpace).reverse

/-- Python `str.strip()`. -/
def pyStrip (l : PyStr) : PyStr := pyRstrip (pyLstrip l)

/-- Python `str.ljust(w)`: pad on the right with spaces up to width `w`. -/
def pyLjust (l : PyStr) (w : Nat) : PyStr := l ++ List.replicate (w - l.length) ' '

/-- Python `str.lower()` on a char list (ASCII). -/
def lowerL (l : PyStr) : PyStr := l.map Char.toLower

/-- Python `str.lower()` on a `String` (ASCII), evaluated at the data level
so that concrete instances reduce in the kernel. -/
def pyLower (s : String) : String := String.mk (s.data.map Char.toLower)

/-- First whitespace-delimited token: `line.split(None, 1)[0]`. -/
def firstToken (l : PyStr) : PyStr := (l.dropWhile isPySpace).takeWhile (fun c => !isPySpace c)

/-- Split a string at newline characters, like Python `readline` iteration /
`str.split('\n')`: `"a\nb" ↦ ["a","b"]`, `"a\n" ↦ ["a",""]`, `"" ↦ [""]`. -/
def splitNL : PyStr → List PyStr
  | [] => [[]]
  | c :: rest =>
    if c = '\n' then [] :: splitNL rest
    else
      match splitNL rest with
      | [] => [[c]]
      | h :: t => (c :: h) :: t

/-- Python `'\n'.join(chunks)`. -/
def joinNL : List PyStr → PyStr
  | [] => []
  | [x] => x
  | x :: y :: t => x ++ '\n' :: joinNL (y :: t)

/-- Python `str.replace(t, rep)` for a single-character pattern `t`. -/
def replaceChar (t : Char) (rep : PyStr) (l : PyStr) : PyStr :=
  l.flatMap (fun c => if c = t then rep else [c])

/-! ### Ordered-dictionary (association list) primitives -/

/-- `d[k] = v` on an `OrderedDict`: overwrite in place if the key exists,
otherwise append at the end. -/
def odSet {α β : Type} [DecidableEq α] (d : List (α × β)) (k : α) (v : β) : List (α × β) :=
  if k ∈ d.map Prod.fst then d.map (fun kv => if kv.1 = k then (k, v) else kv)
  else d ++ [(k, v)]

/-- `del d[k]` on an `OrderedDict`. -/
def odDel {α β : Type} [DecidableEq α] (d : List (α × β)) (k : α) : List (α × β) :=
  d.filter (fun kv => kv.1 ≠ k)

/-- `d[k]` lookup (first, hence unique, binding). -/
def lookupA {α β : Type} [DecidableEq α] : List (α × β) → α → Option β
  | [], _ => none
  | kv :: rest, k => if kv.1 = k then some kv.2 else lookupA rest k

/-- `OrderedDict(pairs)`: insert the pairs left to right. -/
def odOfList {α β : Type} [DecidableEq α] (l : List (α × β)) : List (α × β) :=
  l.foldl (fun d kv => odSet d kv.1 kv.2) []

/-! ### The `ConfigParser._read` line machine

Model of Python 2.7 `RawConfigParser._read` as run by `VersionsConfigParser`
(`optionxform = str`, `_dict = OrderedDict`, `_optcre = OPTCRE`).  Options of a
section are kept as lists of chunks (`cursect[optname] = [optval]`,
`cursect[optname].append(value)`) and joined with `'\n'` at the end.  The
`'__name__'` bookkeeping key is elided: it is skipped by `write_section` and
deleted by `items()`, so it is never observable through the modelled API. -/

/-- The object `cursect` currently points at: nothing yet, the `DEFAULT`
defaults dictionary, or a named section. -/
inductive Cursect
  | nosect
  | defaultsect
  | named (h : PyStr)
  deriving DecidableEq

/-- Parser state: defaults dict, sections dict, `cursect`, `optname`, and
whether a parsing error (`e`) was recorded. -/
structure CPState where
  defaults : List (PyStr × List PyStr)
  sections : List (PyStr × List (PyStr × List PyStr))
  cur : Cursect
  opt : Option PyStr
  err : Bool
  deriving DecidableEq

/-- `SECTCRE = r'\[(?P<header>[^]]+)\]'`, matched at the start of the line:
a `'['`, one or more non-`']'` characters, then `']'` (trailing text ignored). -/
def sectHeader : PyStr → Option PyStr
  | '[' :: rest =>
    if rest.takeWhile (fun c => c ≠ ']') = [] then none
    else if (rest.takeWhile (fun c => c ≠ ']')).length < rest.length then
      some (rest.takeWhile (fun c => c ≠ ']'))
    else none
  | _ => none

/-- `OPTCRE = r'(?P<option>[^:=\s][^:=]*)\s*(?P<vi>[:=])\s*(?P<value>.*)$'`:
returns the raw option group, the delimiter and the value (after `\s*`). -/
def optLine : PyStr → Option (PyStr × Char × PyStr)
  | [] => none
  | c :: rest =>
    if c = ':' ∨ c = '=' ∨ isPySpace c then none
    else
      match rest.drop ((rest.takeWhile (fun x => x ≠ ':' ∧ x ≠ '=')).length) with
      | [] => none
      | vi :: valRest =>
        some (c :: rest.takeWhile (fun x => x ≠ ':' ∧ x ≠ '='), vi, valRest.dropWhile isPySpace)

/-- The `';'`-comment truncation applied to a freshly read value:
`pos = optval.find(';'); if optval[pos-1].isspace(): optval = optval[:pos]`
(for `pos = 0`, Python's `optval[-1]` is the last character). -/
def semiTrunc (v : PyStr) : PyStr :=
  if ';' ∈ v then
    let pos := (v.takeWhile (fun c => c ≠ ';')).length
    let probe := if pos = 0 then v.getLastD ' ' else v.getD (pos - 1) ' '
    if isPySpace probe then v.take pos else v
  else v

/-- Processing of the matched value of an option line: comment truncation
(`vi` is always `'='` or `':'` with `OPTCRE`), `strip()`, and the `'""'`
empty-value convention. -/
def procVal (vi : Char) (optval : PyStr) : PyStr :=
  if pyStrip (if vi = '=' ∨ vi = ':' then semiTrunc optval else optval) = ['"', '"'] then []
  else pyStrip (if vi = '=' ∨ vi = ':' then semiTrunc optval else optval)

/-- `cursect[optname] = [optval]` for the current target. -/
def setOption (st : CPState) (name : PyStr) (val : PyStr) : CPState :=
  match st.cur with
  | .nosect => st
  | .defaultsect => { st with defaults := odSet st.defaults name [val], opt := some name }
  | .named h =>
    { st with
      sections := st.sections.map (fun s => if s.1 = h then (s.1, odSet s.2 name [val]) else s),
      opt := some name }

/-- `cursect[optname].append(value)` for the current target. -/
def addChunk (st : CPState) (name : PyStr) (val : PyStr) : CPState :=
  match st.cur with
  | .nosect => st
  | .defaultsect =>
    { st with defaults := st.defaults.map (fun p => if p.1 = name then (p.1, p.2 ++ [val]) else p) }
  | .named h =>
    { st with
      sections := st.sections.map (fun s =>
        if s.1 = h then
          (s.1, s.2.map (fun p => if p.1 = name then (p.1, p.2 ++ [val]) else p))
        else s) }

/-- Section-header / option-line / error handling (the `else` branch of the
continuation-line test in `_read`). -/
def readOther (st : CPState) (line : PyStr) : CPState :=
  match sectHeader line with
  | some h =>
    if h = "DEFAULT".toList then { st with cur := .defaultsect, opt := none }
    else if h ∈ st.sections.map Prod.fst then { st with cur := .named h, opt := none }
    else { st with sections := st.sections ++ [(h, [])], cur := .named h, opt := none }
  | none =>
    if st.cur = .nosect then { st with err := true }
    else
      match optLine line with
      | some (rawOpt, vi, rawVal) => setOption st (pyRstrip rawOpt) (procVal vi rawVal)
      | none => { st with err := true }

/-- One iteration of the `_read` loop on a physical line (without its
trailing newline). -/
def processLine (st : CPState) (line : PyStr) : CPState :=
  if pyStrip line = [] then st
  else if line.headD ' ' = '#' ∨ line.headD ' ' = ';' then st
  else if (line.headD ' ' = 'r' ∨ line.headD ' ' = 'R') ∧
      lowerL (firstToken line) = "rem".toList then st
  else if isPySpace (line.headD ' ') ∧ st.cur ≠ .nosect ∧ st.opt ≠ none then
    if pyStrip line = [] then st else addChunk st (st.opt.getD []) (pyStrip line)
  else readOther st line

/-- `config.read` on the already-opened file contents: run the line machine,
raise (`Except.error`) if a `MissingSectionHeaderError` or collected
`ParsingError` occurred, and join each option's chunk list with `'\n'`. -/
def config_read (lines : List PyStr) : Except Unit (List (PyStr × List (PyStr × PyStr))) :=
  let st := lines.foldl processLine ⟨[], [], .nosect, none, false⟩
  if st.err then Except.error ()
  else Except.ok (st.sections.map (fun s => (s.1, s.2.map (fun p => (p.1, joinNL p.2)))))

/-- Defaults dictionary produced by the same run (needed by `items()`). -/
def config_read_defaults (lines : List PyStr) : List (PyStr × PyStr) :=
  let st := lines.foldl processLine ⟨[], [], .nosect, none, false⟩
  st.defaults.map (fun p => (p.1, joinNL p.2))

/-- `VersionsChecker.parse_versions`: `config.read(source)` silently ignores a
source that cannot be opened (modelled by `none`), then
`config.items('versions')`; a `NoSectionError` is caught and `[]` returned,
while parse errors propagate.  `items` merges the defaults dictionary with the
section's options (`d = defaults.copy(); d.update(section)`). -/
def parse_versions (file : Option PyStr) : Except Unit (List (PyStr × PyStr)) :=
  match file with
  | none => Except.ok []
  | some s =>
    match config_read (splitNL s) with
    | Except.error e => Except.error e
    | Except.ok sections =>
      match lookupA sections ("versions".toList) with
      | none => Except.ok []
      | some opts =>
        Except.ok (opts.foldl (fun d kv => odSet d kv.1 kv.2) (config_read_defaults (splitNL s)))

/-! ### `VersionsConfigParser.write_section` -/

namespace VersionsConfigParser

/-- Class attribute `indentation = 24`, used when not explicitly overridden. -/
def indentation : Nat := 24

end VersionsConfigParser

/-- `VersionsConfigParser.write_section(fd, section)`: write the header, then
for every key except `'__name__'` write
`'%s= %s\n' % (key.ljust(indentation), value.replace('\n', '\n'.ljust(indentation + 3)))`. -/
def write_section (ind : Nat) (section' : PyStr) (items : List (PyStr × PyStr)) : PyStr :=
  ('[' :: section' ++ [']', '\n']) ++
    items.flatMap (fun kv =>
      if kv.1 = "__name__".toList then []
      else pyLjust kv.1 ind ++ '=' :: ' ' ::
        replaceChar '\n' (pyLjust ['\n'] (ind + 3)) kv.2 ++ ['\n'])

/-- Index of the first `'='` in a written line: the column at which `=`
appears. -/
def eqCol (l : PyStr) : Nat := (l.takeWhile (fun c => c ≠ '=')).length

/-- Well-formedness of a manifest key for the write/parse round trip: the key
survives `write_section` followed by `_read` unchanged.  It must be nonempty,
not the `'__name__'` marker (skipped on write), free of trailing whitespace
(`rstrip` on parse), free of `':'`, `'='` (option/value delimiters) and
newlines, must not start with whitespace (continuation line), `'['` (section
header), `'#'` or `';'` (comments), and must not look like a `rem` comment. -/
@[reducible] def goodKey (k : PyStr) : Prop :=
  k ≠ [] ∧ k ≠ "__name__".toList ∧ pyRstrip k = k ∧
  (∀ c ∈ k, c ≠ ':' ∧ c ≠ '=' ∧ c ≠ '
') ∧
  isPySpace (k.headD ' ') = false ∧
  k.headD ' ' ≠ '[' ∧ k.headD ' ' ≠ '#' ∧ k.headD ' ' ≠ ';' ∧
  ¬((k.headD ' ' = 'r' ∨ k.headD ' ' = 'R') ∧
    lowerL (firstToken (k ++ [' '])) = "rem".toList)

/-- Well-formedness of a manifest value for the round trip: each of its lines
must be `strip()`-fixed, the first line must not be truncated by the `';'`
comment rule nor be the literal `'""'`, and continuation lines must be
nonempty (blank continuation lines are dropped by `_read`). -/
@[reducible] def goodVal (v : PyStr) : Prop :=
  pyStrip ((splitNL v).headD []) = (splitNL v).headD [] ∧
  semiTrunc ((splitNL v).headD []) = (splitNL v).headD [] ∧
  (splitNL v).headD [] ≠ ['"', '"'] ∧
  (∀ li ∈ (splitNL v).tail, li ≠ [] ∧ pyStrip li = li)

/-- The physical lines `write_section` emits for one key/value pair: the
`key.ljust = first-value-line` line followed by one
`(indentation + 2)`-space-indented line per further value line. -/
def itemLines (ind : Nat) (kv : PyStr × PyStr) : List PyStr :=
  (pyLjust kv.1 ind ++ '=' :: ' ' :: (splitNL kv.2).headD []) ::
    (splitNL kv.2).tail.map (fun li => List.replicate (ind + 2) ' ' ++ li)

/-! ### `distutils.version.LooseVersion` -/

/-- A `LooseVersion` component: an integer (from a digit run) or a string. -/
inductive VComp
  | num (n : Nat)
  | str (s : List Char)
  deriving DecidableEq

/-- Three-way comparison on `Nat` (Python `cmp` on ints). -/
def cmpNat (a b : Nat) : Ordering :=
  if a < b then .lt else if a = b then .eq else .gt

/-- Python 2 `cmp` on characters (by code point). -/
def cmpChar (a b : Char) : Ordering := cmpNat a.toNat b.toNat

/-- Python 2 `cmp` on lists of comparable elements: lexicographic, with a
shorter prefix comparing below. -/
def lexCmp {α : Type} (cmp : α → α → Ordering) : List α → List α → Ordering
  | [], [] => .eq
  | [], _ :: _ => .lt
  | _ :: _, [] => .gt
  | a :: ta, b :: tb =>
    match cmp a b with
    | .eq => lexCmp cmp ta tb
    | o => o

/-- Python 2 `cmp` on strings: lexicographic by characters, then by length. -/
def cmpCharList : List Char → List Char → Ordering := lexCmp cmpChar

/-- Python 2 `cmp` on mixed components: ints and strings compare by type name
(`'int' < 'str'`), so every number is below every string. -/
def cmpVComp : VComp → VComp → Ordering
  | .num a, .num b => cmpNat a b
  | .num _, .str _ => .lt
  | .str _, .num _ => .gt
  | .str a, .str b => cmpCharList a b

/-- Python 2 `cmp` on component lists (lexicographic, shorter prefix first). -/
def cmpVList : List VComp → List VComp → Ordering := lexCmp cmpVComp

/-- `'a' ≤ c ≤ 'z'` (the `[a-z]` class of `LooseVersion.component_re`). -/
def isLowerAlpha (c : Char) : Bool := 'a' ≤ c ∧ c ≤ 'z'

/-- Characters that are part of a non-delimiter chunk of
`re.split(r'(\d+|[a-z]+|\.)', s)`. -/
def isOtherChar (c : Char) : Bool := !c.isDigit && !isLowerAlpha c && c ≠ '.'

/-- Value of a digit run. -/
def digitsToNat (l : List Char) : Nat := l.foldl (fun a c => 10 * a + (c.toNat - '0'.toNat)) 0

theorem dropWhile_length_le {α : Type} (p : α → Bool) (l : List α) :
    (l.dropWhile p).length ≤ l.length := by
  induction l with
  | nil => simp [List.dropWhile]
  | cons c t ih =>
    simp only [List.dropWhile]
    split
    · exact Nat.le_succ_of_le ih
    · exact Nat.le_refl _

/-- `LooseVersion.parse`: split on `(\d+|[a-z]+|\.)` keeping delimiters, drop
empty chunks and `'.'`, convert digit runs to integers.  Equivalently: maximal
digit runs become numbers, maximal `[a-z]` runs and maximal runs of remaining
characters become strings, dots are dropped. -/
def looseTok : List Char → List VComp
  | [] => []
  | c :: rest =>
    if c.isDigit then
      .num (digitsToNat (c :: rest.takeWhile Char.isDigit)) :: looseTok (rest.dropWhile Char.isDigit)
    else if c = '.' then looseTok rest
    else if isLowerAlpha c then
      .str (c :: rest.takeWhile isLowerAlpha) :: looseTok (rest.dropWhile isLowerAlpha)
    else
      .str (c :: rest.takeWhile isOtherChar) :: looseTok (rest.dropWhile isOtherChar)
termination_by l => l.length
decreasing_by
  all_goals simp only [List.length_cons]
  all_goals first
    | exact Nat.lt_succ_of_le (dropWhile_length_le ..)
    | exact Nat.lt_succ_of_le (Nat.le_refl _)

/-- `LooseVersion(s).version`. -/
def looseParse (s : String) : List VComp := looseTok s.toList

/-- `LooseVersion(a) > LooseVersion(b)`. -/
def looseGT (a b : String) : Bool := decide (cmpVList (looseParse a) (looseParse b) = Ordering.gt)

/-- `zeroPrefix3 l` means `l` is a (possibly empty) prefix of `[0, 0, 0]` —
exactly the parses that do not compare strictly above the sentinel. -/
def zeroPrefix3 (l : List VComp) : Prop :=
  l = [] ∨ l = [.num 0] ∨ l = [.num 0, .num 0] ∨ l = [.num 0, .num 0, .num 0]

/-! ### `VersionsChecker` -/

/-- `VersionsChecker.default_version`. -/
def default_version : String := "0.0.0"

/-- `VersionsChecker.include_exclude_versions(source_versions, includes, excludes)`:
work on a copy; add each include whose lowercased name is not among the
lowercased original keys, with `default_version`; then delete (iterating over a
snapshot of the keys) every key whose lowercased form is in the lowercased
excludes. -/
def include_exclude_versions (source_versions : List (String × String))
    (includes excludes : List String) : List (String × String) :=
  let versions := source_versions
  let packagesLower := (versions.map Prod.fst).map pyLower
  let versions := includes.foldl
    (fun v inc => if pyLower inc ∈ packagesLower then v else odSet v inc default_version)
    versions
  let excludesLower := excludes.map pyLower
  (versions.map Prod.fst).foldl
    (fun v package => if pyLower package ∈ excludesLower then odDel v package else v)
    versions

/-- `VersionsChecker.fetch_last_version(package, service_url)`: `search` stands
for the (deterministic) `ServerProxy(service_url).search({'name': package})`
query, returning `(name, version)` records.  Records whose lowercased name
matches the lowercased package are folded through the `LooseVersion`
comparison starting from `default_version`. -/
def fetch_last_version (search : String → List (String × String)) (package : String) :
    String × String :=
  let package_key := pyLower package
  let max_version := (search package).foldl
    (fun max_version result =>
      if pyLower result.1 = package_key then
        if looseGT result.2 max_version then result.2 else max_version
      else max_version)
    default_version
  (package, max_version)

/-- `VersionsChecker.fetch_last_versions(packages, threads, service_url)`:
with `threads > 1` the results are collected with `futures.as_completed`, i.e.
in an arbitrary completion order of the submitted tasks, modelled by the
`completion` list (a permutation of `packages`); otherwise strictly
sequentially in package order. -/
def fetch_last_versions (search : String → List (String × String)) (packages : List String)
    (threads : Nat) (completion : List String) : List (String × String) :=
  if threads > 1 then completion.map (fetch_last_version search)
  else packages.map (fetch_last_version search)

/-- `VersionsChecker.find_updates(versions, last_versions)`: for each pinned
package in order, look up `last_versions[package]` (a missing key raises
`KeyError`, modelled by `none`) and report the pair when the two version
strings differ. -/
def find_updates : List (String × String) → List (String × String) →
    Option (List (String × String))
  | [], _ => some []
  | (package, current_version) :: rest, last_versions =>
    match lookupA last_versions package with
    | none => none
    | some last_version =>
      match find_updates rest last_versions with
      | none => none
      | some updates =>
        some ((if last_version ≠ current_version then [(package, last_version)] else []) ++ updates)

/-- The `VersionsChecker.__init__` pipeline: parse, wrap in `OrderedDict`,
filter, fetch (over `self.versions.keys()`), wrap in `OrderedDict`, diff, wrap
in `OrderedDict`. -/
def checker_run (file : Option PyStr) (includes excludes : List String)
    (search : String → List (String × String)) (threads : Nat) (completion : List String) :
    Except Unit (List (String × String)) :=
  match parse_versions file with
  | Except.error e => Except.error e
  | Except.ok parsed =>
    let source_versions := odOfList (parsed.map (fun kv => (String.mk kv.1, String.mk kv.2)))
    let versions := include_exclude_versions source_versions includes excludes
    let last_versions :=
      odOfList (fetch_last_versions search (versions.map Prod.fst) threads completion)
    match find_updates versions last_versions with
    | none => Except.error ()
    | some updates => Except.ok (odOfList updates)

/-- A concrete deterministic stub index client, used by witnesses. -/
def demoSearch : String → List (String × String) :=
  fun package => if package = "a" then [("a", "1.0")] else [("b", "2.0")]

/-! ### Heap model of `include_exclude_versions`

To state that the method never mutates `self.source_versions`, Python dict
variables are modelled as references into a heap of dictionaries.
`versions = source_versions.copy()` allocates a fresh reference; every
subsequent `versions[...] = ...` / `del versions[...]` statement updates the
heap at that fresh reference. -/

/-- A heap of Python `OrderedDict` objects, addressed by allocation index. -/
abbrev DictHeap := List (List (String × String))

/-- `include_exclude_versions` acting on a heap: `srcRef` is the reference held
by `self.source_versions`; the returned reference is the method's local
`versions` object. -/
def include_exclude_versions_heap (heap : DictHeap) (srcRef : Nat)
    (includes excludes : List String) : DictHeap × Nat :=
  let src := heap.getD srcRef []
  let verRef := heap.length
  let heap := heap ++ [src]
  let packagesLower := (src.map Prod.fst).map pyLower
  let heap := includes.foldl
    (fun h inc =>
      if pyLower inc ∈ packagesLower then h
      else h.set verRef (odSet (h.getD verRef []) inc default_version))
    heap
  let excludesLower := excludes.map pyLower
  let heap := ((heap.getD verRef []).map Prod.fst).foldl
    (fun h package =>
      if pyLower package ∈ excludesLower then h.set verRef (odDel (h.getD verRef []) package)
      else h)
    heap
  (heap, verRef)

/-! ### Utility lemmas about the text primitives -/

theorem takeWhile_append_all {α : Type} (p : α → Bool) (a b : List α)
    (h : ∀ c ∈ a, p c = true) : (a ++ b).takeWhile p = a ++ b.takeWhile p := by
  induction a with
  | nil => rfl
  | cons c t ih =>
    simp only [List.cons_append, List.takeWhile_cons, h c (by simp), if_true]
    exact congrArg (List.cons c) (ih (fun x hx => h x (by simp [hx])))

theorem dropWhile_append_all {α : Type} (p : α → Bool) (a b : List α)
    (h : ∀ c ∈ a, p c = true) : (a ++ b).dropWhile p = b.dropWhile p := by
  induction a with
  | nil => rfl
  | cons c t ih =>
    simp only [List.cons_append, List.dropWhile_cons, h c (by simp)]
    simp only [if_true]
    exact ih (fun x hx => h x (by simp [hx]))

theorem dropWhile_eq_self_of_all {α : Type} (p : α → Bool) (l : List α)
    (h : ∀ c ∈ l, p c = false) : l.dropWhile p = l := by
  cases l with
  | nil => rfl
  | cons c t => simp [List.dropWhile_cons, h c (List.mem_cons_self c t)]

theorem takeWhile_append_stop {α : Type} (p : α → Bool) (a : List α) (b0 : α) (bs : List α)
    (h : ∀ c ∈ a, p c = true) (h0 : p b0 = false) :
    (a ++ b0 :: bs).takeWhile p = a := by
  rw [takeWhile_append_all p a _ h]
  simp [List.takeWhile_cons, h0]

theorem takeWhile_append_of_stop_mem {α : Type} (p : α → Bool) (a b : List α)
    (h : ∃ c ∈ a, p c = false) : (a ++ b).takeWhile p = a.takeWhile p := by
  induction a with
  | nil => rcases h with ⟨c, hc, _⟩; simp at hc
  | cons c t ih =>
    by_cases hc : p c = true
    · simp only [List.cons_append, List.takeWhile_cons, hc]
      rcases h with ⟨d, hd, hdp⟩
      rcases List.mem_cons.mp hd with rfl | hd'
      · rw [hc] at hdp; cases hdp
      · simpa using ih ⟨d, hd', hdp⟩
    · simp only [Bool.not_eq_true] at hc
      simp [List.takeWhile_cons, hc]

theorem pyRstrip_append_spaces (a : PyStr) (n : Nat) :
    pyRstrip (a ++ List.replicate n ' ') = pyRstrip a := by
  unfold pyRstrip
  rw [List.reverse_append, List.reverse_replicate]
  rw [dropWhile_append_all isPySpace _ _ (fun c hc => by
    rw [List.eq_of_mem_replicate hc]; rfl)]

/-- A strip-fixed string has no leading whitespace. -/
theorem lstrip_of_strip_fixed {l : PyStr} (h : pyStrip l = l) : pyLstrip l = l := by
  have h1 : (pyStrip l).length ≤ (pyLstrip l).length := by
    unfold pyStrip pyRstrip
    calc ((pyLstrip l).reverse.dropWhile isPySpace).reverse.length
        = ((pyLstrip l).reverse.dropWhile isPySpace).length := by rw [List.length_reverse]
      _ ≤ (pyLstrip l).reverse.length := dropWhile_length_le ..
      _ = (pyLstrip l).length := by rw [List.length_reverse]
  have h2 : (pyLstrip l).length ≤ l.length := dropWhile_length_le ..
  rw [h] at h1
  have hsfx : (pyLstrip l).IsSuffix l := List.dropWhile_suffix isPySpace
  exact hsfx.eq_of_length (Nat.le_antisymm h2 h1)

/-- A strip-fixed string has no trailing whitespace either. -/
theorem rstrip_of_strip_fixed {l : PyStr} (h : pyStrip l = l) : pyRstrip l = l := by
  have hl := lstrip_of_strip_fixed h
  unfold pyStrip at h
  rwa [hl] at h

theorem pyStrip_of_no_space {l : PyStr} (h : ∀ c ∈ l, isPySpace c = false) :
    pyStrip l = l := by
  unfold pyStrip pyLstrip pyRstrip
  rw [dropWhile_eq_self_of_all isPySpace l h,
    dropWhile_eq_self_of_all isPySpace l.reverse (fun c hc => h c (List.mem_reverse.mp hc)),
    List.reverse_reverse]

/-! ### C1: `find_updates` is an exact-string diff in iteration order -/

/-- Claim C1: for every pinned-version list and every results mapping with an
entry for each pinned package, `find_updates` succeeds and returns exactly the
pairs `(package, results[package])` whose fetched value differs from the
pinned value by plain string inequality, in the pinned list's iteration
order. -/
theorem find_updates_exact_string_diff (versions last_versions : List (String × String))
    (h : ∀ p ∈ versions.map Prod.fst, (lookupA last_versions p).isSome) :
    find_updates versions last_versions =
      some (versions.filterMap (fun kv =>
        match lookupA last_versions kv.1 with
        | none => none
        | some lv => if lv ≠ kv.2 then some (kv.1, lv) else none)) := by
  induction versions with
  | nil => rfl
  | cons kv rest ih =>
    obtain ⟨p, cv⟩ := kv
    have hp : (lookupA last_versions p).isSome := h p (by simp)
    obtain ⟨lv, hlv⟩ := Option.isSome_iff_exists.mp hp
    rw [find_updates, hlv, ih (fun q hq => h q (by simp; right; simpa using hq))]
    simp only [List.filterMap_cons, hlv]
    by_cases hne : lv ≠ cv
    · simp [hne]
    · simp [hne]

/-- Witness for C1 at the spec's own example: pinned `foo = 1.0`, fetched
`foo = 1.0.0` is flagged as an update. -/
theorem find_updates_exact_string_diff_witness :
    (∀ p ∈ ([("foo", "1.0")] : List (String × String)).map Prod.fst,
      (lookupA [("foo", "1.0.0")] p).isSome) ∧
    find_updates [("foo", "1.0")] [("foo", "1.0.0")] = some [("foo", "1.0.0")] := by
  refine ⟨by decide, ?_⟩
  rw [find_updates_exact_string_diff _ _ (by decide)]
  decide

/-! ### C10: the heap run of `include_exclude_versions` leaves the source alone -/

theorem getD_set_ne (l : DictHeap) (i j : Nat) (a : List (String × String)) (h : i ≠ j) :
    (l.set j a).getD i [] = l.getD i [] := by
  simp [List.getD_eq_getElem?_getD, List.getElem?_set_ne (Ne.symm h)]

theorem getD_set_self (l : DictHeap) (j : Nat) (a : List (String × String)) (h : j < l.length) :
    (l.set j a).getD j [] = a := by
  simp [List.getD_eq_getElem?_getD, List.getElem?_set_self, h]

/-- A fold whose every step either keeps the heap or stores at index `j`
does not change any other cell. -/
theorem getD_foldl_preserve {β : Type} (F : DictHeap → β → DictHeap) (j : Nat)
    (hF : ∀ acc x, F acc x = acc ∨ ∃ d, F acc x = acc.set j d)
    (l : List β) (acc : DictHeap) (i : Nat) (hij : i ≠ j) :
    (l.foldl F acc).getD i [] = acc.getD i [] := by
  induction l generalizing acc with
  | nil => rfl
  | cons x t ih =>
    rw [List.foldl_cons, ih (F acc x)]
    rcases hF acc x with heq | ⟨d, heq⟩
    · rw [heq]
    · rw [heq, getD_set_ne _ _ _ _ hij]

/-- A fold whose steps read and write only heap cell `j` computes, at cell
`j`, the corresponding pure fold, and preserves the heap length. -/
theorem foldl_heap_tracks {β : Type} (F : DictHeap → β → DictHeap)
    (G : List (String × String) → β → List (String × String)) (j : Nat)
    (hF : ∀ acc x, F acc x = acc.set j (G (acc.getD j []) x) ∨
          (F acc x = acc ∧ G (acc.getD j []) x = acc.getD j []))
    (l : List β) (acc : DictHeap) (hj : j < acc.length) :
    (l.foldl F acc).length = acc.length ∧
    (l.foldl F acc).getD j [] = l.foldl G (acc.getD j []) := by
  induction l generalizing acc with
  | nil => exact ⟨rfl, rfl⟩
  | cons x t ih =>
    rw [List.foldl_cons, List.foldl_cons]
    rcases hF acc x with heq | ⟨heq, hG⟩
    · rw [heq]
      have hlen : (acc.set j (G (acc.getD j []) x)).length = acc.length := by simp
      obtain ⟨ih1, ih2⟩ := ih (acc.set j (G (acc.getD j []) x)) (by rw [hlen]; exact hj)
      refine ⟨by rw [ih1, hlen], ?_⟩
      rw [ih2, getD_set_self _ _ _ hj]
    · rw [heq, hG]
      exact ih acc hj

/-- Claim C10: `include_exclude_versions` works on a copy and never mutates
`self.source_versions`: after the heap run the source cell is unchanged, and
the freshly allocated result cell holds exactly the pure
`include_exclude_versions` of the source dictionary. -/
theorem include_exclude_no_mutation (heap : DictHeap) (srcRef : Nat)
    (includes excludes : List String) (h : srcRef < heap.length) :
    ((include_exclude_versions_heap heap srcRef includes excludes).1).getD srcRef [] =
      heap.getD srcRef [] ∧
    ((include_exclude_versions_heap heap srcRef includes excludes).1).getD
        ((include_exclude_versions_heap heap srcRef includes excludes).2) [] =
      include_exclude_versions (heap.getD srcRef []) includes excludes := by
  unfold include_exclude_versions_heap
  simp only []
  set src := heap.getD srcRef [] with hsrc
  set verRef := heap.length with hver
  have hne : srcRef ≠ verRef := Nat.ne_of_lt h
  set packagesLower := (src.map Prod.fst).map pyLower with hpl
  set excludesLower := excludes.map pyLower with hex
  -- the two heap folds
  set F1 : DictHeap → String → DictHeap := fun hp inc =>
    if pyLower inc ∈ packagesLower then hp
    else hp.set verRef (odSet (hp.getD verRef []) inc default_version) with hF1
  set G1 : List (String × String) → String → List (String × String) := fun d inc =>
    if pyLower inc ∈ packagesLower then d else odSet d inc default_version with hG1
  set F2 : DictHeap → String → DictHeap := fun hp package =>
    if pyLower package ∈ excludesLower then hp.set verRef (odDel (hp.getD verRef []) package)
    else hp with hF2
  set G2 : List (String × String) → String → List (String × String) := fun d package =>
    if pyLower package ∈ excludesLower then odDel d package else d with hG2
  have hF1spec : ∀ acc x, F1 acc x = acc.set verRef (G1 (acc.getD verRef []) x) ∨
      (F1 acc x = acc ∧ G1 (acc.getD verRef []) x = acc.getD verRef []) := by
    intro acc x
    by_cases hx : pyLower x ∈ packagesLower
    · exact Or.inr ⟨by simp [hF1, hx], by simp [hG1, hx]⟩
    · exact Or.inl (by simp [hF1, hG1, hx])
  have hF2spec : ∀ acc x, F2 acc x = acc.set verRef (G2 (acc.getD verRef []) x) ∨
      (F2 acc x = acc ∧ G2 (acc.getD verRef []) x = acc.getD verRef []) := by
    intro acc x
    by_cases hx : pyLower x ∈ excludesLower
    · exact Or.inl (by simp [hF2, hG2, hx])
    · exact Or.inr ⟨by simp [hF2, hx], by simp [hG2, hx]⟩
  have hF1pres : ∀ acc x, F1 acc x = acc ∨ ∃ d, F1 acc x = acc.set verRef d := by
    intro acc x
    rcases hF1spec acc x with heq | ⟨heq, _⟩
    · exact Or.inr ⟨_, heq⟩
    · exact Or.inl heq
  have hF2pres : ∀ acc x, F2 acc x = acc ∨ ∃ d, F2 acc x = acc.set verRef d := by
    intro acc x
    rcases hF2spec acc x with heq | ⟨heq, _⟩
    · exact Or.inr ⟨_, heq⟩
    · exact Or.inl heq
  have hinit : (heap ++ [src]).getD verRef [] = src := by
    rw [hver]
    simp [List.getD_eq_getElem?_getD, List.getElem?_concat_length]
  have hinitlen : verRef < (heap ++ [src]).length := by
    rw [hver]; simp
  obtain ⟨hlen1, htrack1⟩ := foldl_heap_tracks F1 G1 verRef hF1spec includes (heap ++ [src]) hinitlen
  set heap1 := includes.foldl F1 (heap ++ [src]) with hheap1
  have hlen1' : verRef < heap1.length := by rw [hlen1]; exact hinitlen
  obtain ⟨hlen2, htrack2⟩ :=
    foldl_heap_tracks F2 G2 verRef hF2spec ((heap1.getD verRef []).map Prod.fst) heap1 hlen1'
  constructor
  · -- the source cell is untouched
    rw [getD_foldl_preserve F2 verRef hF2pres _ heap1 srcRef hne,
      getD_foldl_preserve F1 verRef hF1pres _ (heap ++ [src]) srcRef hne]
    exact List.getD_append _ _ _ _ h
  · -- the result cell holds the pure computation
    rw [htrack2, htrack1, hinit]
    rfl

/-- Witness for C10 at a concrete heap. -/
theorem include_exclude_no_mutation_witness :
    0 < ([[("a", "1")]] : DictHeap).length ∧
    ((include_exclude_versions_heap [[("a", "1")]] 0 ["b"] ["a"]).1).getD 0 [] = [("a", "1")] := by
  refine ⟨by decide, ?_⟩
  rw [(include_exclude_no_mutation [[("a", "1")]] 0 ["b"] ["a"] (by decide)).1]
  rfl

/-! ### The `LooseVersion` comparison is a total preorder

`cmpNat`, `cmpChar`, `cmpCharList`, `cmpVComp` and `cmpVList` are shown to be
`swap`-symmetric and transitive, which is what the maximum characterisation of
`fetch_last_version` needs. -/

theorem cmpNat_swap (a b : Nat) : cmpNat a b = (cmpNat b a).swap := by
  unfold cmpNat
  rcases Nat.lt_trichotomy a b with h | h | h
  · simp [h, Nat.not_lt.mpr (Nat.le_of_lt h), Nat.ne_of_gt h, Ordering.swap]
  · simp [h, Ordering.swap]
  · simp [h, Nat.not_lt.mpr (Nat.le_of_lt h), Nat.ne_of_gt h, Nat.ne_of_lt h,
      Nat.lt_irrefl, Ordering.swap]

theorem cmpNat_eq_iff (a b : Nat) : cmpNat a b = .eq ↔ a = b := by
  unfold cmpNat
  rcases Nat.lt_trichotomy a b with h | h | h
  · simp [h, Nat.ne_of_lt h]
  · simp [h]
  · simp [Nat.not_lt.mpr (Nat.le_of_lt h), Nat.ne_of_gt h, Nat.lt_irrefl]

theorem cmpNat_lt_iff (a b : Nat) : cmpNat a b = .lt ↔ a < b := by
  unfold cmpNat
  rcases Nat.lt_trichotomy a b with h | h | h
  · simp [h]
  · simp [h, Nat.lt_irrefl]
  · simp [Nat.not_lt.mpr (Nat.le_of_lt h), Nat.ne_of_gt h]

theorem cmpNat_trans_lt {a b c : Nat} (h1 : cmpNat a b = .lt) (h2 : cmpNat b c = .lt) :
    cmpNat a c = .lt :=
  (cmpNat_lt_iff ..).mpr (Nat.lt_trans ((cmpNat_lt_iff ..).mp h1) ((cmpNat_lt_iff ..).mp h2))

theorem cmpChar_swap (a b : Char) : cmpChar a b = (cmpChar b a).swap := cmpNat_swap ..

theorem cmpChar_trans_lt {a b c : Char} (h1 : cmpChar a b = .lt) (h2 : cmpChar b c = .lt) :
    cmpChar a c = .lt := cmpNat_trans_lt h1 h2

theorem cmpChar_eq_congr_left {a b : Char} (h : cmpChar a b = .eq) (c : Char) :
    cmpChar a c = cmpChar b c := by
  unfold cmpChar at *
  rw [(cmpNat_eq_iff ..).mp h]

theorem ordering_self_swap {o : Ordering} (h : o = o.swap) : o = .eq := by
  cases o <;> simp [Ordering.swap] at h ⊢

theorem lexCmp_swap {α : Type} (cmp : α → α → Ordering)
    (hsw : ∀ a b, cmp a b = (cmp b a).swap) (x y : List α) :
    lexCmp cmp x y = (lexCmp cmp y x).swap := by
  induction x generalizing y with
  | nil => cases y <;> rfl
  | cons a ta ih =>
    cases y with
    | nil => rfl
    | cons b tb =>
      simp only [lexCmp, hsw a b]
      cases hh : cmp b a <;> simp [Ordering.swap, ih tb]

theorem lexCmp_refl {α : Type} (cmp : α → α → Ordering)
    (hsw : ∀ a b, cmp a b = (cmp b a).swap) (x : List α) : lexCmp cmp x x = .eq :=
  ordering_self_swap (lexCmp_swap cmp hsw x x)

theorem lexCmp_eq_congr_left {α : Type} (cmp : α → α → Ordering)
    (hcg : ∀ a b, cmp a b = .eq → ∀ c, cmp a c = cmp b c) {x y : List α}
    (h : lexCmp cmp x y = .eq) (z : List α) : lexCmp cmp x z = lexCmp cmp y z := by
  induction x generalizing y z with
  | nil =>
    cases y with
    | nil => rfl
    | cons b tb => simp [lexCmp] at h
  | cons a ta ih =>
    cases y with
    | nil => simp [lexCmp] at h
    | cons b tb =>
      simp only [lexCmp] at h
      cases hab : cmp a b with
      | eq =>
        rw [hab] at h
        cases z with
        | nil => rfl
        | cons c tc =>
          simp only [lexCmp, hcg a b hab c]
          cases hbc : cmp b c <;> simp [ih h]
      | lt => rw [hab] at h; cases h
      | gt => rw [hab] at h; cases h

theorem lexCmp_trans_lt {α : Type} (cmp : α → α → Ordering)
    (hsw : ∀ a b, cmp a b = (cmp b a).swap)
    (hcg : ∀ a b, cmp a b = .eq → ∀ c, cmp a c = cmp b c)
    (htr : ∀ {a b c}, cmp a b = .lt → cmp b c = .lt → cmp a c = .lt)
    {x y z : List α} (h1 : lexCmp cmp x y = .lt) (h2 : lexCmp cmp y z = .lt) :
    lexCmp cmp x z = .lt := by
  induction x generalizing y z with
  | nil =>
    cases y with
    | nil => simp [lexCmp] at h1
    | cons b tb =>
      cases z with
      | nil => simp [lexCmp] at h2
      | cons c tc => simp [lexCmp]
  | cons a ta ih =>
    cases y with
    | nil => simp [lexCmp] at h1
    | cons b tb =>
      cases z with
      | nil => simp only [lexCmp] at h2; cases h2
      | cons c tc =>
        simp only [lexCmp] at h1 h2 ⊢
        cases hab : cmp a b with
        | eq =>
          rw [hab] at h1
          cases hbc : cmp b c with
          | eq =>
            rw [hbc] at h2
            rw [hcg a b hab c, hbc]
            exact ih h1 h2
          | lt => rw [hcg a b hab c, hbc]
          | gt => rw [hbc] at h2; cases h2
        | lt =>
          cases hbc : cmp b c with
          | eq =>
            have hcb : cmp c b = .eq := by
              have hs := hsw c b
              rw [hbc] at hs
              simpa [Ordering.swap] using hs
            have hac : cmp a c = cmp a b := by
              have h1' := hsw a c
              rw [hcg c b hcb a, ← hsw a b] at h1'
              exact h1'
            rw [hac, hab]
          | lt => rw [htr hab hbc]
          | gt => rw [hbc] at h2; cases h2
        | gt => rw [hab] at h1; cases h1

theorem cmpVComp_swap (a b : VComp) : cmpVComp a b = (cmpVComp b a).swap := by
  cases a <;> cases b
  · exact cmpNat_swap ..
  · rfl
  · rfl
  · exact lexCmp_swap cmpChar cmpChar_swap ..

theorem cmpVComp_eq_congr_left {a b : VComp} (h : cmpVComp a b = .eq) (c : VComp) :
    cmpVComp a c = cmpVComp b c := by
  cases a <;> cases b <;> simp [cmpVComp] at h ⊢
  · rw [(cmpNat_eq_iff ..).mp h]
  · cases c <;> simp [cmpVComp]
    exact lexCmp_eq_congr_left cmpChar (fun x y hxy z => cmpChar_eq_congr_left hxy z) h _

theorem cmpVComp_trans_lt {a b c : VComp} (h1 : cmpVComp a b = .lt) (h2 : cmpVComp b c = .lt) :
    cmpVComp a c = .lt := by
  cases a <;> cases b <;> cases c <;> simp [cmpVComp] at h1 h2 ⊢
  · exact cmpNat_trans_lt h1 h2
  · exact lexCmp_trans_lt cmpChar cmpChar_swap
      (fun x y hxy z => cmpChar_eq_congr_left hxy z)
      (fun hxy hyz => cmpChar_trans_lt hxy hyz) h1 h2

theorem cmpVList_swap (x y : List VComp) : cmpVList x y = (cmpVList y x).swap :=
  lexCmp_swap cmpVComp cmpVComp_swap x y

theorem cmpVList_le_trans {x y z : List VComp} (h1 : cmpVList x y ≠ .gt)
    (h2 : cmpVList y z ≠ .gt) : cmpVList x z ≠ .gt := by
  unfold cmpVList at *
  cases hxy : lexCmp cmpVComp x y with
  | gt => exact absurd hxy h1
  | eq =>
    rw [lexCmp_eq_congr_left cmpVComp (fun a b hab c => cmpVComp_eq_congr_left hab c) hxy z]
    exact h2
  | lt =>
    cases hyz : lexCmp cmpVComp y z with
    | gt => exact absurd hyz h2
    | eq =>
      have hzy : lexCmp cmpVComp z y = .eq := by
        have hs := lexCmp_swap cmpVComp cmpVComp_swap z y
        rw [hyz] at hs
        simpa [Ordering.swap] using hs
      have : lexCmp cmpVComp x z = lexCmp cmpVComp x y := by
        have h1' := lexCmp_swap cmpVComp cmpVComp_swap x z
        rw [lexCmp_eq_congr_left cmpVComp (fun a b hab c => cmpVComp_eq_congr_left hab c) hzy x,
          ← lexCmp_swap cmpVComp cmpVComp_swap x y] at h1'
        exact h1'
      rw [this, hxy]
      simp
    | lt =>
      rw [lexCmp_trans_lt cmpVComp cmpVComp_swap
        (fun a b hab c => cmpVComp_eq_congr_left hab c)
        (fun hab hbc => cmpVComp_trans_lt hab hbc) hxy hyz]
      simp

/-! ### C3 / C4: `fetch_last_version` and the zero-version sentinel -/

theorem looseGT_false_le {a b : String} (h : looseGT a b = false) :
    cmpVList (looseParse a) (looseParse b) ≠ .gt :=
  of_decide_eq_false h

theorem looseGT_true_le {a b : String} (h : looseGT a b = true) :
    cmpVList (looseParse b) (looseParse a) ≠ .gt := by
  have h' : cmpVList (looseParse a) (looseParse b) = .gt := of_decide_eq_true h
  rw [cmpVList_swap, h']
  decide

theorem looseLE_refl (a : String) : cmpVList (looseParse a) (looseParse a) ≠ .gt := by
  unfold cmpVList
  rw [lexCmp_refl cmpVComp cmpVComp_swap]
  decide

/-- The inner fold of `fetch_last_version`, characterised: it returns either
the initial value or a matching record's version, never decreases, and ends
`LooseVersion`-above every matching record. -/
theorem fetch_fold_spec (pk : String) (records : List (String × String)) (mv : String) :
    (records.foldl (fun max_version result =>
        if pyLower result.1 = pk then
          if looseGT result.2 max_version then result.2 else max_version
        else max_version) mv = mv ∨
      ∃ r ∈ records, pyLower r.1 = pk ∧
        r.2 = records.foldl (fun max_version result =>
          if pyLower result.1 = pk then
            if looseGT result.2 max_version then result.2 else max_version
          else max_version) mv) ∧
    cmpVList (looseParse mv) (looseParse (records.foldl (fun max_version result =>
        if pyLower result.1 = pk then
          if looseGT result.2 max_version then result.2 else max_version
        else max_version) mv)) ≠ .gt ∧
    (∀ r ∈ records, pyLower r.1 = pk →
      cmpVList (looseParse r.2) (looseParse (records.foldl (fun max_version result =>
        if pyLower result.1 = pk then
          if looseGT result.2 max_version then result.2 else max_version
        else max_version) mv)) ≠ .gt) := by
  induction records generalizing mv with
  | nil => exact ⟨Or.inl rfl, looseLE_refl mv, by simp⟩
  | cons r rest ih =>
    simp only [List.foldl_cons]
    by_cases hmatch : pyLower r.1 = pk
    · by_cases hgt : looseGT r.2 mv = true
      · rw [if_pos hmatch, if_pos hgt]
        obtain ⟨ih1, ih2, ih3⟩ := ih r.2
        refine ⟨?_, ?_, ?_⟩
        · rcases ih1 with heq | ⟨q, hq, hqpk, hqv⟩
          · exact Or.inr ⟨r, by simp, hmatch, heq.symm ▸ rfl⟩
          · exact Or.inr ⟨q, by simp [hq], hqpk, hqv⟩
        · exact cmpVList_le_trans (looseGT_true_le hgt) ih2
        · intro q hq hqpk
          rcases List.mem_cons.mp hq with rfl | hq'
          · exact ih2
          · exact ih3 q hq' hqpk
      · rw [if_pos hmatch, if_neg hgt]
        rw [Bool.not_eq_true] at hgt
        obtain ⟨ih1, ih2, ih3⟩ := ih mv
        refine ⟨?_, ih2, ?_⟩
        · rcases ih1 with heq | ⟨q, hq, hqpk, hqv⟩
          · exact Or.inl heq
          · exact Or.inr ⟨q, by simp [hq], hqpk, hqv⟩
        · intro q hq hqpk
          rcases List.mem_cons.mp hq with rfl | hq'
          · exact cmpVList_le_trans (looseGT_false_le hgt) ih2
          · exact ih3 q hq' hqpk
    · rw [if_neg hmatch]
      obtain ⟨ih1, ih2, ih3⟩ := ih mv
      refine ⟨?_, ih2, ?_⟩
      · rcases ih1 with heq | ⟨q, hq, hqpk, hqv⟩
        · exact Or.inl heq
        · exact Or.inr ⟨q, by simp [hq], hqpk, hqv⟩
      · intro q hq hqpk
        rcases List.mem_cons.mp hq with rfl | hq'
        · exact absurd hqpk hmatch
        · exact ih3 q hq' hqpk

/-- The fold ignores records whose name does not match. -/
theorem fetch_fold_filter (pk : String) (records : List (String × String)) (mv : String) :
    records.foldl (fun max_version result =>
        if pyLower result.1 = pk then
          if looseGT result.2 max_version then result.2 else max_version
        else max_version) mv =
      (records.filter (fun r => pyLower r.1 = pk)).foldl (fun max_version result =>
        if pyLower result.1 = pk then
          if looseGT result.2 max_version then result.2 else max_version
        else max_version) mv := by
  induction records generalizing mv with
  | nil => rfl
  | cons r rest ih =>
    by_cases hmatch : pyLower r.1 = pk
    · rw [List.foldl_cons, List.filter_cons_of_pos (by simp [hmatch]), List.foldl_cons]
      simp only [hmatch, if_true]
      exact ih _
    · rw [List.foldl_cons, List.filter_cons_of_neg (by simp [hmatch])]
      simp only [hmatch, if_false]
      exact ih _

/-- Claim C3 (amended): `fetch_last_version` returns the queried package name
with the maximum, under the `LooseVersion` comparison, of the sentinel
`default_version` together with the versions of the case-insensitively
matching records; non-matching records are ignored, and with no matching
record the sentinel is returned.  The embedding is a total function: a "not
found" outcome never raises. -/
theorem fetch_last_version_max_spec (search : String → List (String × String))
    (package : String) :
    (fetch_last_version search package).1 = package ∧
    ((fetch_last_version search package).2 = default_version ∨
      ∃ r ∈ search package, pyLower r.1 = pyLower package ∧
        r.2 = (fetch_last_version search package).2) ∧
    (∀ r ∈ search package, pyLower r.1 = pyLower package →
      looseGT r.2 (fetch_last_version search package).2 = false) ∧
    ((∀ r ∈ search package, pyLower r.1 ≠ pyLower package) →
      (fetch_last_version search package).2 = default_version) ∧
    fetch_last_version search package =
      fetch_last_version (fun p => (search p).filter (fun r => pyLower r.1 = pyLower p))
        package := by
  obtain ⟨h1, h2, h3⟩ := fetch_fold_spec (pyLower package) (search package) default_version
  refine ⟨rfl, ?_, ?_, ?_, ?_⟩
  · exact h1
  · intro r hr hrpk
    exact decide_eq_false (h3 r hr hrpk)
  · intro hnone
    have hfil : (search package).filter (fun r => pyLower r.1 = pyLower package) = [] := by
      rw [List.filter_eq_nil_iff]
      intro r hr
      simp [hnone r hr]
    show (search package).foldl _ default_version = default_version
    rw [fetch_fold_filter (pyLower package) (search package) default_version, hfil]
    rfl
  · show (package, _) = (package, _)
    refine congrArg (Prod.mk package) ?_
    exact fetch_fold_filter (pyLower package) (search package) default_version

/-- Witness for C3 (amended) at a concrete index: for package `Foo` with one
matching record `foo = 1.2`, the result is `LooseVersion`-maximal over that
record. -/
theorem fetch_last_version_max_spec_witness :
    looseGT "1.2" (fetch_last_version (fun _ => [("foo", "1.2")]) "Foo").2 = false := by
  refine (fetch_last_version_max_spec (fun _ => [("foo", "1.2")]) "Foo").2.2.1
    ("foo", "1.2") (by simp) (by decide)

/-- Counterexample to claim C3 as stated: for a matching record with version
`0.0`, the only matching version string is `0.0`, yet `fetch_last_version`
returns the sentinel `0.0.0` (which is `LooseVersion`-greater), not the
maximum of the matching records' version strings. -/
theorem fetch_last_version_sentinel_cex :
    fetch_last_version (fun _ => [("pkg", "0.0")]) "pkg" = ("pkg", "0.0.0") ∧
    ("0.0.0" : String) ≠ "0.0" := by
  constructor
  · have hgt : looseGT "0.0" "0.0.0" = false := by
      have h1 : looseParse "0.0" = [.num 0, .num 0] := by
        simp [looseParse, looseTok, digitsToNat]
      have h2 : looseParse "0.0.0" = [.num 0, .num 0, .num 0] := by
        simp [looseParse, looseTok, digitsToNat]
      rw [looseGT, h1, h2]
      decide
    show (_, List.foldl _ _ _) = _
    rw [show default_version = "0.0.0" from rfl]
    simp only [List.foldl_cons, List.foldl_nil]
    rw [if_pos (by decide), if_neg (by simp [hgt])]
  · decide

theorem cmp_zzz_gt (l : List VComp) (h : ¬ zeroPrefix3 l) :
    cmpVList l [.num 0, .num 0, .num 0] = .gt := by
  unfold cmpVList
  rcases l with _ | ⟨c1, t1⟩
  · exact absurd (Or.inl rfl) h
  rcases c1 with n1 | s1
  · cases n1 with
    | succ m => simp [lexCmp, cmpVComp, cmpNat]
    | zero =>
      rcases t1 with _ | ⟨c2, t2⟩
      · exact absurd (Or.inr (Or.inl rfl)) h
      rcases c2 with n2 | s2
      · cases n2 with
        | succ m => simp [lexCmp, cmpVComp, cmpNat]
        | zero =>
          rcases t2 with _ | ⟨c3, t3⟩
          · exact absurd (Or.inr (Or.inr (Or.inl rfl))) h
          rcases c3 with n3 | s3
          · cases n3 with
            | succ m => simp [lexCmp, cmpVComp, cmpNat]
            | zero =>
              rcases t3 with _ | ⟨c4, t4⟩
              · exact absurd (Or.inr (Or.inr (Or.inr rfl))) h
              · simp [lexCmp, cmpVComp, cmpNat]
          · simp [lexCmp, cmpVComp, cmpNat]
      · simp [lexCmp, cmpVComp, cmpNat]
  · simp [lexCmp, cmpVComp, cmpNat]

/-- Claim C4 (amended): the sentinel `0.0.0` is not a floor of the
`LooseVersion` ordering, but every version string whose parse is not a prefix
of `[0, 0, 0]` does compare strictly greater than it; for such versions the
fold of `fetch_last_version` cannot be left at the sentinel by a single
matching record. -/
theorem loose_zero_floor_amended (v : String) (h : ¬ zeroPrefix3 (looseParse v)) :
    looseGT v default_version = true := by
  apply decide_eq_true
  have h000 : looseParse default_version = [.num 0, .num 0, .num 0] := by
    simp [default_version, looseParse, looseTok, digitsToNat]
  rw [h000]
  exact cmp_zzz_gt (looseParse v) h

/-- Witness for C4 (amended) at `v = "1.0"`. -/
theorem loose_zero_floor_amended_witness : looseGT "1.0" default_version = true := by
  apply loose_zero_floor_amended
  have h10 : looseParse "1.0" = [.num 1, .num 0] := by
    simp [looseParse, looseTok, digitsToNat]
  rw [h10]
  intro hzp
  rcases hzp with h | h | h | h <;> simp at h

/-- Counterexample to claim C4 as stated: the real, non-sentinel version
string `"0"` does not compare strictly greater than the sentinel `0.0.0` —
it compares strictly below it — and with the single matching record
`pkg = 0`, `fetch_last_version` returns the sentinel, not that record's
version. -/
theorem loose_zero_floor_cex :
    looseGT "0" default_version = false ∧
    looseGT default_version "0" = true ∧
    (fetch_last_version (fun _ => [("pkg", "0")]) "pkg").2 = default_version := by
  have h0 : looseParse "0" = [.num 0] := by
    simp [looseParse, looseTok, digitsToNat]
  have h000 : looseParse default_version = [.num 0, .num 0, .num 0] := by
    simp [default_version, looseParse, looseTok, digitsToNat]
  have hgt : looseGT "0" default_version = false := by
    rw [looseGT, h0, h000]; decide
  refine ⟨hgt, ?_, ?_⟩
  · rw [looseGT, h0, h000]; decide
  · show List.foldl _ _ _ = default_version
    simp only [List.foldl_cons, List.foldl_nil]
    rw [if_pos (by decide), if_neg (by simp [hgt])]

/-! ### C7: thread count is a performance knob, not a correctness one -/

/-- `lookupA` on a list whose values are determined by their keys. -/
theorem lookupA_determined (g : String → String) (d : List (String × String)) (k : String)
    (hd : ∀ kv ∈ d, kv.2 = g kv.1) :
    lookupA d k = if k ∈ d.map Prod.fst then some (g k) else none := by
  induction d with
  | nil => rfl
  | cons kv rest ih =>
    by_cases hk : kv.1 = k
    · rw [lookupA, if_pos hk]
      have hmem : k ∈ (kv :: rest).map Prod.fst := by simp [← hk]
      rw [if_pos hmem, hd kv (by simp), hk]
    · rw [lookupA, if_neg hk]
      rw [ih (fun q hq => hd q (by simp [hq]))]
      by_cases hmem : k ∈ rest.map Prod.fst
      · simp [hmem, hk]
      · simp [hmem, hk, Ne.symm hk]

theorem odSet_determined (g : String → String) (d : List (String × String)) (k : String)
    (hd : ∀ kv ∈ d, kv.2 = g kv.1) :
    ∀ kv ∈ odSet d k (g k), kv.2 = g kv.1 := by
  intro kv hkv
  unfold odSet at hkv
  split at hkv
  · obtain ⟨q, hq, hqeq⟩ := List.mem_map.mp hkv
    by_cases hqk : q.1 = k
    · rw [if_pos hqk] at hqeq
      rw [← hqeq]
    · rw [if_neg hqk] at hqeq
      exact hqeq ▸ hd q hq
  · rcases List.mem_append.mp hkv with hin | hone
    · exact hd kv hin
    · simp at hone
      rw [hone]

theorem odSet_keys_fst (d : List (String × String)) (k v : String) :
    (odSet d k v).map Prod.fst =
      if k ∈ d.map Prod.fst then d.map Prod.fst else d.map Prod.fst ++ [k] := by
  unfold odSet
  by_cases hk : k ∈ d.map Prod.fst
  · rw [if_pos hk, if_pos hk, List.map_map]
    apply List.map_congr_left
    intro kv _
    by_cases hkv : kv.1 = k
    · simp [hkv]
    · simp [hkv]
  · rw [if_neg hk, if_neg hk]
    simp

theorem odSet_keys_mem (d : List (String × String)) (k v : String) (j : String) :
    j ∈ (odSet d k v).map Prod.fst ↔ j ∈ d.map Prod.fst ∨ j = k := by
  rw [odSet_keys_fst]
  by_cases hk : k ∈ d.map Prod.fst
  · rw [if_pos hk]
    constructor
    · exact Or.inl
    · rintro (h | rfl)
      · exact h
      · exact hk
  · rw [if_neg hk]
    simp

/-- Looking up a key in `OrderedDict(pairs)` for key-determined pairs only
depends on the key set. -/
theorem lookupA_odOfList_determined (g : String → String) (m : List (String × String))
    (k : String) (hm : ∀ kv ∈ m, kv.2 = g kv.1) :
    lookupA (odOfList m) k = if k ∈ m.map Prod.fst then some (g k) else none := by
  suffices h : ∀ (d : List (String × String)), (∀ kv ∈ d, kv.2 = g kv.1) →
      lookupA (m.foldl (fun d kv => odSet d kv.1 kv.2) d) k =
        if k ∈ d.map Prod.fst ∨ k ∈ m.map Prod.fst then some (g k) else none by
    rw [odOfList, h [] (by simp)]
    by_cases hk : k ∈ m.map Prod.fst
    · rw [if_pos (Or.inr hk), if_pos hk]
    · rw [if_neg (by simp [hk]), if_neg hk]
  induction m with
  | nil =>
    intro d hd
    rw [List.foldl_nil, lookupA_determined g d k hd]
    by_cases hk : k ∈ d.map Prod.fst
    · rw [if_pos hk, if_pos (Or.inl hk)]
    · rw [if_neg hk, if_neg (by simp [hk])]
  | cons kv rest ih =>
    intro d hd
    rw [List.foldl_cons]
    have hkv2 : kv.2 = g kv.1 := hm kv (by simp)
    have hd' : ∀ q ∈ odSet d kv.1 kv.2, q.2 = g q.1 := by
      rw [hkv2]
      exact odSet_determined g d kv.1 hd
    rw [ih (fun q hq => hm q (by simp [hq])) (odSet d kv.1 kv.2) hd']
    by_cases hks : k ∈ (odSet d kv.1 kv.2).map Prod.fst ∨ k ∈ rest.map Prod.fst
    · rw [if_pos hks]
      have : k ∈ d.map Prod.fst ∨ k ∈ (kv :: rest).map Prod.fst := by
        rcases hks with hks | hks
        · rcases (odSet_keys_mem d kv.1 kv.2 k).mp hks with h | h
          · exact Or.inl h
          · exact Or.inr (by simp [h])
        · exact Or.inr (by simp [hks])
      rw [if_pos this]
    · rw [if_neg hks]
      push_neg at hks
      obtain ⟨hks1, hks2⟩ := hks
      have : ¬(k ∈ d.map Prod.fst ∨ k ∈ (kv :: rest).map Prod.fst) := by
        intro hcon
        rcases hcon with h | h
        · exact hks1 ((odSet_keys_mem d kv.1 kv.2 k).mpr (Or.inl h))
        · simp only [List.map_cons, List.mem_cons] at h
          rcases h with h | h
          · exact hks1 ((odSet_keys_mem d kv.1 kv.2 k).mpr (Or.inr h))
          · exact hks2 h
      rw [if_neg this]

/-- Claim C7: for a deterministic index client `search`, the thread-pool path
(`threads = 10`, results collected in an arbitrary completion order
`completion`, a permutation of the package list) and the sequential path
(`threads = 1`) give `OrderedDict`s that are equal as key-to-value mappings. -/
theorem fetch_concurrency_invariance (search : String → List (String × String))
    (packages completion : List String) (hperm : completion.Perm packages) (k : String) :
    lookupA (odOfList (fetch_last_versions search packages 10 completion)) k =
      lookupA (odOfList (fetch_last_versions search packages 1 completion)) k := by
  have h10 : fetch_last_versions search packages 10 completion =
      completion.map (fetch_last_version search) := rfl
  have h1 : fetch_last_versions search packages 1 completion =
      packages.map (fetch_last_version search) := rfl
  rw [h10, h1]
  have hdet : ∀ (l : List String), ∀ kv ∈ l.map (fetch_last_version search),
      kv.2 = (fun p => (fetch_last_version search p).2) kv.1 := by
    intro l kv hkv
    obtain ⟨p, hp, hpe⟩ := List.mem_map.mp hkv
    rw [← hpe]
    rfl
  rw [lookupA_odOfList_determined (fun p => (fetch_last_version search p).2) _ k (hdet completion),
    lookupA_odOfList_determined (fun p => (fetch_last_version search p).2) _ k (hdet packages)]
  have hkeys : ∀ (l : List String), (l.map (fetch_last_version search)).map Prod.fst = l := by
    intro l
    rw [List.map_map]
    have hcomp : (Prod.fst ∘ fetch_last_version search) = id := funext fun p => rfl
    rw [hcomp, List.map_id]
  rw [hkeys completion, hkeys packages]
  by_cases hk : k ∈ packages
  · rw [if_pos (hperm.mem_iff.mpr hk), if_pos hk]
  · rw [if_neg (fun hc => hk (hperm.mem_iff.mp hc)), if_neg hk]

/-- Witness for C7: a concrete two-package stub client with completion order
reversed from package order. -/
theorem fetch_concurrency_invariance_witness :
    (["b", "a"] : List String).Perm ["a", "b"] ∧
    lookupA (odOfList (fetch_last_versions demoSearch ["a", "b"] 10 ["b", "a"])) "a" =
      lookupA (odOfList (fetch_last_versions demoSearch ["a", "b"] 1 ["b", "a"])) "a" :=
  ⟨by decide, fetch_concurrency_invariance demoSearch ["a", "b"] ["b", "a"] (by decide) "a"⟩

/-! ### C2: `include_exclude_versions` -/

theorem map_eq_self_of_fix {α : Type} (l : List α) (f : α → α) (h : ∀ x ∈ l, f x = x) :
    l.map f = l := by
  rw [List.map_congr_left h]
  simp

/-- The include phase appends, in order, the includes whose lowercased name is
not among the lowercased original keys, with the sentinel as value. -/
theorem include_fold_spec (packagesLower : List String) (src : List (String × String))
    (hsrc : ∀ kv ∈ src, pyLower kv.1 ∈ packagesLower) :
    ∀ (includes : List String) (added : List (String × String)),
    (∀ kv ∈ added, kv.2 = default_version ∧ pyLower kv.1 ∉ packagesLower) →
    ∃ added2 : List (String × String),
      includes.foldl (fun v inc => if pyLower inc ∈ packagesLower then v
          else odSet v inc default_version) (src ++ added) = src ++ added ++ added2 ∧
      (∀ kv ∈ added2, kv.2 = default_version ∧ pyLower kv.1 ∉ packagesLower) ∧
      List.Sublist (added2.map Prod.fst) includes ∧
      (∀ i ∈ includes, pyLower i ∈ packagesLower ∨ i ∈ (added ++ added2).map Prod.fst) := by
  intro includes
  induction includes with
  | nil =>
    intro added hadded
    exact ⟨[], by simp, by simp, List.nil_sublist _, by simp⟩
  | cons i rest ih =>
    intro added hadded
    rw [List.foldl_cons]
    by_cases hmem : pyLower i ∈ packagesLower
    · rw [if_pos hmem]
      obtain ⟨added2, h1, h2, h3, h4⟩ := ih added hadded
      refine ⟨added2, h1, h2, h3.cons i, ?_⟩
      intro j hj
      rcases List.mem_cons.mp hj with rfl | hj'
      · exact Or.inl hmem
      · exact h4 j hj'
    · rw [if_neg hmem]
      have hsrckey : ∀ kv ∈ src, kv.1 ≠ i := by
        intro kv hkv hcon
        exact hmem (hcon ▸ hsrc kv hkv)
      by_cases hkey : i ∈ (src ++ added).map Prod.fst
      · have hodset : odSet (src ++ added) i default_version = src ++ added := by
          unfold odSet
          rw [if_pos hkey]
          apply map_eq_self_of_fix
          intro kv hkv
          rcases List.mem_append.mp hkv with hin | hin
          · rw [if_neg (hsrckey kv hin)]
          · by_cases hki : kv.1 = i
            · rw [if_pos hki]
              obtain ⟨hval, _⟩ := hadded kv hin
              rw [← hki, ← hval]
            · rw [if_neg hki]
        rw [hodset]
        obtain ⟨added2, h1, h2, h3, h4⟩ := ih added hadded
        refine ⟨added2, h1, h2, h3.cons i, ?_⟩
        intro j hj
        rcases List.mem_cons.mp hj with rfl | hj'
        · have hj_added : j ∈ added.map Prod.fst := by
            rcases List.mem_map.mp hkey with ⟨q, hq, hqfst⟩
            rcases List.mem_append.mp hq with hin | hin
            · exact absurd hqfst (hsrckey q hin)
            · exact List.mem_map.mpr ⟨q, hin, hqfst⟩
          right
          rw [List.map_append]
          exact List.mem_append.mpr (Or.inl hj_added)
        · exact h4 j hj'
      · have hodset : odSet (src ++ added) i default_version =
            src ++ (added ++ [(i, default_version)]) := by
          unfold odSet
          rw [if_neg hkey, List.append_assoc]
        rw [hodset]
        have hadded' : ∀ kv ∈ added ++ [(i, default_version)],
            kv.2 = default_version ∧ pyLower kv.1 ∉ packagesLower := by
          intro kv hkv
          rcases List.mem_append.mp hkv with hin | hone
          · exact hadded kv hin
          · simp at hone
            rw [hone]
            exact ⟨rfl, hmem⟩
        obtain ⟨added2, h1, h2, h3, h4⟩ := ih (added ++ [(i, default_version)]) hadded'
        refine ⟨(i, default_version) :: added2, ?_, ?_, ?_, ?_⟩
        · rw [h1]
          simp [List.append_assoc]
        · intro kv hkv
          rcases List.mem_cons.mp hkv with rfl | hin
          · exact ⟨rfl, hmem⟩
          · exact h2 kv hin
        · exact h3.cons₂ i
        · intro j hj
          rcases List.mem_cons.mp hj with rfl | hj'
          · right
            simp
          · rcases h4 j hj' with hl | hr
            · exact Or.inl hl
            · right
              simp only [List.map_append, List.mem_append, List.map_cons, List.mem_cons,
                List.map_nil, List.not_mem_nil, or_false, List.mem_singleton] at hr ⊢
              tauto

/-- The delete phase, iterating over a snapshot `ks` of the keys, filters out
exactly the keys of the snapshot whose lowercased form is excluded. -/
theorem delete_fold_filter (excludesLower : List String) :
    ∀ (ks : List String) (v : List (String × String)),
    ks.foldl (fun v package => if pyLower package ∈ excludesLower then odDel v package else v) v =
      v.filter (fun kv => !decide (kv.1 ∈ ks ∧ pyLower kv.1 ∈ excludesLower)) := by
  intro ks
  induction ks with
  | nil =>
    intro v
    rw [List.foldl_nil]
    symm
    rw [List.filter_eq_self]
    intro kv _
    simp
  | cons pk ks ih =>
    intro v
    rw [List.foldl_cons]
    by_cases hex : pyLower pk ∈ excludesLower
    · rw [if_pos hex, odDel, ih, List.filter_filter]
      apply List.filter_congr
      intro kv _
      by_cases hkpk : kv.1 = pk
      · simp [hkpk, hex]
      · simp [hkpk]
    · rw [if_neg hex, ih]
      apply List.filter_congr
      intro kv _
      by_cases hkpk : kv.1 = pk
      · simp [hkpk, hex]
      · simp [hkpk]

/-- Claim C2 (amended): the filtered set contains no (case-insensitively)
excluded name; every include whose lowercased name is not excluded appears
(case-insensitively); the result is the source manifest minus the excluded
entries, in manifest order with values unchanged, followed by the newly
included names in the order given, each pinned to the sentinel. -/
theorem include_exclude_versions_spec (source_versions : List (String × String))
    (includes excludes : List String) :
    (∀ kv ∈ include_exclude_versions source_versions includes excludes,
        pyLower kv.1 ∉ excludes.map pyLower) ∧
    (∀ i ∈ includes, pyLower i ∉ excludes.map pyLower →
        ∃ kv ∈ include_exclude_versions source_versions includes excludes,
          pyLower kv.1 = pyLower i) ∧
    (∃ added, include_exclude_versions source_versions includes excludes =
        source_versions.filter (fun kv => !decide (pyLower kv.1 ∈ excludes.map pyLower)) ++
          added ∧
        (∀ kv ∈ added, kv.2 = default_version) ∧
        List.Sublist (added.map Prod.fst) includes) := by
  have hsrc : ∀ kv ∈ source_versions,
      pyLower kv.1 ∈ (source_versions.map Prod.fst).map pyLower :=
    fun kv hkv => List.mem_map_of_mem pyLower (List.mem_map_of_mem Prod.fst hkv)
  obtain ⟨added2, h1, h2, h3, h4⟩ :=
    include_fold_spec ((source_versions.map Prod.fst).map pyLower) source_versions hsrc
      includes [] (by simp)
  rw [List.append_nil] at h1
  have hout : include_exclude_versions source_versions includes excludes =
      source_versions.filter
          (fun kv => !decide (pyLower kv.1 ∈ excludes.map pyLower)) ++
        added2.filter (fun kv => !decide (pyLower kv.1 ∈ excludes.map pyLower)) := by
    simp only [include_exclude_versions]
    rw [h1, delete_fold_filter, List.filter_append]
    congr 1
    · apply List.filter_congr
      intro kv hkv
      have hks : kv.1 ∈ (source_versions ++ added2).map Prod.fst :=
        List.mem_map_of_mem Prod.fst (List.mem_append.mpr (Or.inl hkv))
      by_cases hb : pyLower kv.1 ∈ excludes.map pyLower
      · rw [decide_eq_true (show _ ∧ _ from ⟨hks, hb⟩), decide_eq_true hb]
      · rw [decide_eq_false (fun hc => hb hc.2), decide_eq_false hb]
    · apply List.filter_congr
      intro kv hkv
      have hks : kv.1 ∈ (source_versions ++ added2).map Prod.fst :=
        List.mem_map_of_mem Prod.fst (List.mem_append.mpr (Or.inr hkv))
      by_cases hb : pyLower kv.1 ∈ excludes.map pyLower
      · rw [decide_eq_true (show _ ∧ _ from ⟨hks, hb⟩), decide_eq_true hb]
      · rw [decide_eq_false (fun hc => hb hc.2), decide_eq_false hb]
  refine ⟨?_, ?_, added2.filter (fun kv => !decide (pyLower kv.1 ∈ excludes.map pyLower)),
    hout, ?_, ?_⟩
  · intro kv hkv
    rw [hout] at hkv
    rcases List.mem_append.mp hkv with h | h <;>
      simpa using (List.mem_filter.mp h).2
  · intro i hi hex
    rcases h4 i hi with hl | hr
    · rcases List.mem_map.mp hl with ⟨key, hkeymem, hkeyeq⟩
      rcases List.mem_map.mp hkeymem with ⟨kv0, hkv0, hkv0fst⟩
      have hlow : pyLower kv0.1 = pyLower i := by rw [hkv0fst, hkeyeq]
      refine ⟨kv0, ?_, hlow⟩
      rw [hout]
      apply List.mem_append.mpr
      left
      refine List.mem_filter.mpr ⟨hkv0, ?_⟩
      simp [hlow, hex]
    · have hr' : i ∈ added2.map Prod.fst := by simpa using hr
      rcases List.mem_map.mp hr' with ⟨q, hq, hqfst⟩
      refine ⟨q, ?_, by rw [hqfst]⟩
      rw [hout]
      apply List.mem_append.mpr
      right
      refine List.mem_filter.mpr ⟨hq, ?_⟩
      simp [hqfst, hex]
  · intro kv hkv
    exact (h2 kv (List.mem_filter.mp hkv).1).1
  · exact ((List.filter_sublist added2).map Prod.fst).trans h3

/-- Counterexample to claim C2 as stated: a name both included and excluded is
removed (excludes run last), so the include does not appear in the result at
all, contradicting "every include name appears in the result". -/
theorem include_exclude_conflict_cex :
    include_exclude_versions [] ["foo"] ["foo"] = [] := by decide

/-- Witness for C2 (amended) at a concrete manifest. -/
theorem include_exclude_versions_spec_witness :
    ("bar" : String) ∈ (["bar"] : List String) ∧
    pyLower "bar" ∉ (["baz"] : List String).map pyLower ∧
    ∃ kv ∈ include_exclude_versions [("Foo", "1.0")] ["bar"] ["baz"],
      pyLower kv.1 = pyLower "bar" :=
  ⟨by decide, by decide,
    (include_exclude_versions_spec [("Foo", "1.0")] ["bar"] ["baz"]).2.1 "bar"
      (by decide) (by decide)⟩

/-! ### Lemmas about line splitting and joining -/

theorem splitNL_ne_nil (l : PyStr) : splitNL l ≠ [] := by
  cases l with
  | nil => simp [splitNL]
  | cons c rest =>
    unfold splitNL
    by_cases hc : c = '\n'
    · simp [hc]
    · simp only [hc, if_false]
      cases h : splitNL rest <;> simp

theorem splitNL_append_nl (a b : PyStr) (h : '\n' ∉ a) :
    splitNL (a ++ '\n' :: b) = a :: splitNL b := by
  induction a with
  | nil => simp [splitNL]
  | cons c t ih =>
    have hc : c ≠ '\n' := fun hcon => h (hcon ▸ List.mem_cons_self c t)
    have ht : '\n' ∉ t := fun hcon => h (List.mem_cons_of_mem c hcon)
    rw [List.cons_append]
    unfold splitNL
    rw [if_neg hc, ih ht]
    simp
    cases b <;> rfl

theorem splitNL_no_nl (a : PyStr) (h : '\n' ∉ a) : splitNL a = [a] := by
  induction a with
  | nil => rfl
  | cons c t ih =>
    have hc : c ≠ '\n' := fun hcon => h (hcon ▸ List.mem_cons_self c t)
    have ht : '\n' ∉ t := fun hcon => h (List.mem_cons_of_mem c hcon)
    unfold splitNL
    rw [if_neg hc, ih ht]

theorem joinNL_splitNL (v : PyStr) : joinNL (splitNL v) = v := by
  induction v with
  | nil => rfl
  | cons c t ih =>
    unfold splitNL
    by_cases hc : c = '\n'
    · rw [if_pos hc, hc]
      cases h : splitNL t with
      | nil => exact absurd h (splitNL_ne_nil t)
      | cons x xs =>
        rw [h] at ih
        show joinNL ([] :: x :: xs) = '\n' :: t
        unfold joinNL
        rw [show joinNL (x :: xs) = t from ih]
        rfl
    · rw [if_neg hc]
      cases h : splitNL t with
      | nil => exact absurd h (splitNL_ne_nil t)
      | cons x xs =>
        rw [h] at ih
        cases xs with
        | nil =>
          show joinNL [c :: x] = c :: t
          unfold joinNL at ih ⊢
          rw [ih]
        | cons y ys =>
          show joinNL ((c :: x) :: y :: ys) = c :: t
          unfold joinNL at ih ⊢
          rw [List.cons_append, ih]

theorem mem_splitNL_no_nl (v p : PyStr) (hp : p ∈ splitNL v) : '\n' ∉ p := by
  induction v generalizing p with
  | nil =>
    simp [splitNL] at hp
    simp [hp]
  | cons c t ih =>
    unfold splitNL at hp
    by_cases hc : c = '\n'
    · rw [if_pos hc] at hp
      rcases List.mem_cons.mp hp with rfl | hp'
      · simp
      · exact ih p hp'
    · rw [if_neg hc] at hp
      cases h : splitNL t with
      | nil => exact absurd h (splitNL_ne_nil t)
      | cons x xs =>
        rw [h] at hp
        rcases List.mem_cons.mp hp with rfl | hp'
        · intro hcon
          rcases List.mem_cons.mp hcon with hcon' | hcon'
          · exact hc hcon'.symm
          · exact ih x (h ▸ List.mem_cons_self x xs) hcon'
        · exact ih p (h ▸ List.mem_cons_of_mem x hp')

theorem splitNL_head (l : PyStr) : (splitNL l).getD 0 [] = l.takeWhile (fun c => c ≠ '\n') := by
  induction l with
  | nil => rfl
  | cons c t ih =>
    unfold splitNL
    by_cases hc : c = '\n'
    · subst hc
      simp [List.takeWhile_cons]
    · rw [List.takeWhile_cons]
      simp only [hc, decide_eq_true_eq, decide_not]
      cases h : splitNL t with
      | nil => exact absurd h (splitNL_ne_nil t)
      | cons x xs =>
        rw [h] at ih
        simp only [List.getD_cons_zero] at ih
        simp [hc, ih]

theorem replaceChar_append (t : Char) (rep a b : PyStr) :
    replaceChar t rep (a ++ b) = replaceChar t rep a ++ replaceChar t rep b := by
  unfold replaceChar
  rw [List.flatMap_append]

theorem replaceChar_no_occur (t : Char) (rep l : PyStr) (h : t ∉ l) :
    replaceChar t rep l = l := by
  induction l with
  | nil => rfl
  | cons c rest ih =>
    have hc : c ≠ t := fun hcon => h (hcon ▸ List.mem_cons_self c rest)
    unfold replaceChar at ih ⊢
    rw [List.flatMap_cons, if_neg hc, ih (fun hcon => h (List.mem_cons_of_mem c hcon))]
    rfl

/-! ### C5 / C9: behaviour of `parse_versions` at the edges -/

/-- Counterexample to claim C5 as stated: for an unopenable source path
(modelled by `none`), `config.read` silently ignores the file and
`parse_versions` returns the empty manifest with no error — no
`ManifestNotFound`-style failure exists in this code. -/
theorem parse_versions_unreadable_cex : parse_versions none = Except.ok [] := rfl

/-- Claim C5 (amended): when the source cannot be opened, loading silently
yields an empty manifest and the run proceeds: with no includes and excludes
the whole checker pipeline succeeds with an empty update set, never touching
the error path. -/
theorem unreadable_source_empty_run (search : String → List (String × String))
    (threads : Nat) :
    checker_run none [] [] search threads [] = Except.ok [] := by
  unfold checker_run parse_versions
  simp only []
  unfold include_exclude_versions fetch_last_versions
  by_cases ht : threads > 1
  · simp [ht, odOfList, find_updates]
  · simp [ht, odOfList, find_updates]

/-- Counterexample to claim C9 as stated: the readable document `xyz` has no
`versions` section, yet loading raises (`MissingSectionHeaderError`) instead
of returning an empty manifest. -/
theorem parse_versions_malformed_cex :
    parse_versions (some ("xyz".toList)) = Except.error () := rfl

/-- Claim C9 (amended): for every readable document that parses successfully
and has no `versions` section, `parse_versions` returns the empty manifest
rather than an error, whatever other sections the document contains. -/
theorem parse_versions_missing_section (s : PyStr)
    (sections : List (PyStr × List (PyStr × PyStr)))
    (hok : config_read (splitNL s) = Except.ok sections)
    (hmiss : lookupA sections ("versions".toList) = none) :
    parse_versions (some s) = Except.ok [] := by
  have hun : parse_versions (some s) =
      match config_read (splitNL s) with
      | Except.error e => Except.error e
      | Except.ok sections =>
        match lookupA sections ("versions".toList) with
        | none => Except.ok []
        | some opts => Except.ok (opts.foldl (fun d kv => odSet d kv.1 kv.2)
            (config_read_defaults (splitNL s))) := rfl
  rw [hun, hok]
  show (match lookupA sections ("versions".toList) with
    | none => Except.ok []
    | some opts => Except.ok (opts.foldl (fun d kv => odSet d kv.1 kv.2)
        (config_read_defaults (splitNL s)))) = Except.ok []
  rw [hmiss]

/-- Witness for C9 (amended): a document with only an unrelated `buildout`
section loads as the empty manifest. -/
theorem parse_versions_missing_section_witness :
    config_read (splitNL ("[buildout]\nparts = app\n".toList)) =
      Except.ok [("buildout".toList, [("parts".toList, "app".toList)])] ∧
    lookupA [("buildout".toList, [("parts".toList, "app".toList)])] ("versions".toList) =
      none ∧
    parse_versions (some ("[buildout]\nparts = app\n".toList)) = Except.ok [] :=
  ⟨rfl, rfl,
    parse_versions_missing_section _ [("buildout".toList, [("parts".toList, "app".toList)])]
      rfl rfl⟩

/-! ### C8: the `=` column of `write_section` -/

/-- Counterexample to claim C8 as stated: with the indentation not explicitly
set (the class default 24), two sections whose longest keys have lengths 1 and
16 are both written with `=` at column 24: the column is the fixed class
constant, not a width derived from the section's longest key. -/
theorem indentation_fixed_cex :
    VersionsConfigParser.indentation = 24 ∧
    eqCol ((splitNL (write_section VersionsConfigParser.indentation ("versions".toList)
        [("a".toList, "1".toList)])).getD 1 []) = 24 ∧
    eqCol ((splitNL (write_section VersionsConfigParser.indentation ("versions".toList)
        [("abcdefghijklmnop".toList, "1".toList)])).getD 1 []) = 24 ∧
    ("a".toList : PyStr).length = 1 ∧ ("abcdefghijklmnop".toList : PyStr).length = 16 := by
  decide

theorem pyLjust_length (l : PyStr) (w : Nat) : (pyLjust l w).length = max w l.length := by
  simp only [pyLjust, List.length_append, List.length_replicate]
  omega

/-- Claim C8 (amended): for a key containing no `=` and no newline, the `=` of
its written line sits at column `max indentation (length key)`: the ljust
width (defaulting to the fixed class constant 24), or right after the key when
the key is longer — never a width derived from the section's longest key. -/
theorem write_section_eq_column (ind : Nat) (sec k v : PyStr)
    (hsecnl : '\n' ∉ sec) (hkeq : '=' ∉ k) (hknl : '\n' ∉ k)
    (hname : k ≠ "__name__".toList) :
    eqCol ((splitNL (write_section ind sec [(k, v)])).getD 1 []) = max ind k.length := by
  have hw : write_section ind sec [(k, v)] =
      ('[' :: (sec ++ [']'])) ++ '\n' ::
        (pyLjust k ind ++ '=' :: ' ' ::
          (replaceChar '\n' (pyLjust ['\n'] (ind + 3)) v ++ ['\n'])) := by
    unfold write_section
    rw [List.flatMap_cons, List.flatMap_nil, if_neg hname]
    simp [List.append_assoc]
  have hAnl : '\n' ∉ ('[' :: (sec ++ [']']) : PyStr) := by
    intro hcon
    rcases List.mem_cons.mp hcon with h | h
    · cases h
    · rcases List.mem_append.mp h with h | h
      · exact hsecnl h
      · simp at h
  have hpylnl : ∀ c ∈ pyLjust k ind, (fun c => decide (c ≠ '\n')) c = true := by
    intro c hc
    rcases List.mem_append.mp hc with h | h
    · simp
      intro hcon
      exact hknl (hcon ▸ h)
    · rw [List.eq_of_mem_replicate h]
      simp
  have hpyleq : ∀ c ∈ pyLjust k ind, (fun c => decide (c ≠ '=')) c = true := by
    intro c hc
    rcases List.mem_append.mp hc with h | h
    · simp
      intro hcon
      exact hkeq (hcon ▸ h)
    · rw [List.eq_of_mem_replicate h]
      simp
  rw [hw, splitNL_append_nl _ _ hAnl, List.getD_cons_succ, splitNL_head]
  rw [takeWhile_append_all _ _ _ hpylnl]
  rw [List.takeWhile_cons]
  simp only [show (decide (('=' : Char) ≠ '\n')) = true by decide, if_true]
  unfold eqCol
  rw [takeWhile_append_stop _ _ '=' _ hpyleq (by decide)]
  exact pyLjust_length k ind

/-- Witness for C8 (amended): key `foo` with the default indentation gets its
`=` at column `max 24 3 = 24`. -/
theorem write_section_eq_column_witness :
    '\n' ∉ ("versions".toList : PyStr) ∧ '=' ∉ ("foo".toList : PyStr) ∧
    '\n' ∉ ("foo".toList : PyStr) ∧ ("foo".toList : PyStr) ≠ "__name__".toList ∧
    eqCol ((splitNL (write_section VersionsConfigParser.indentation ("versions".toList)
        [("foo".toList, "1.0".toList)])).getD 1 []) =
      max VersionsConfigParser.indentation ("foo".toList : PyStr).length :=
  ⟨by decide, by decide, by decide, by decide,
    write_section_eq_column VersionsConfigParser.indentation ("versions".toList)
      ("foo".toList) ("1.0".toList) (by decide) (by decide) (by decide) (by decide)⟩

/-! ### C6: the write/parse round trip -/

theorem dropWhile_eq_nil_all {α : Type} (p : α → Bool) (l : List α)
    (h : l.dropWhile p = []) : ∀ x ∈ l, p x = true := by
  induction l with
  | nil => simp
  | cons c t ih =>
    rw [List.dropWhile_cons] at h
    by_cases hc : p c = true
    · rw [if_pos hc] at h
      intro x hx
      rcases List.mem_cons.mp hx with rfl | hx'
      · exact hc
      · exact ih h x hx'
    · rw [if_neg hc] at h
      cases h

theorem pyStrip_cons_ne_nil (c : Char) (x : PyStr) (hc : isPySpace c = false) :
    pyStrip (c :: x) ≠ [] := by
  unfold pyStrip pyLstrip pyRstrip
  rw [List.dropWhile_cons, hc]
  simp only [Bool.false_eq_true, if_false]
  intro hcon
  rw [List.reverse_eq_nil_iff] at hcon
  have := dropWhile_eq_nil_all isPySpace _ hcon c
    (List.mem_reverse.mpr (List.mem_cons_self c x))
  rw [hc] at this
  cases this

theorem pyStrip_pad_append (n : Nat) (li : PyStr) (h : pyStrip li = li) :
    pyStrip (List.replicate n ' ' ++ li) = li := by
  unfold pyStrip
  rw [show pyLstrip (List.replicate n ' ' ++ li) = pyLstrip li from
    dropWhile_append_all _ _ _ (fun c hc => by rw [List.eq_of_mem_replicate hc]; rfl)]
  rw [lstrip_of_strip_fixed h]
  exact rstrip_of_strip_fixed h

theorem sectHeader_not_bracket (c : Char) (rest : PyStr) (h : c ≠ '[') :
    sectHeader (c :: rest) = none := by
  unfold sectHeader
  split
  · next heq =>
    injection heq with h1 _
    exact absurd h1 h
  · rfl

theorem processLine_nil (st : CPState) : processLine st [] = st := rfl

theorem splitNL_joinLines (ls : List PyStr) (h : ∀ l ∈ ls, '\n' ∉ l) :
    splitNL (ls.flatMap (fun l => l ++ ['\n'])) = ls ++ [[]] := by
  induction ls with
  | nil => rfl
  | cons l rest ih =>
    rw [List.flatMap_cons, List.append_assoc, List.singleton_append,
      splitNL_append_nl l _ (h l (by simp)), ih (fun q hq => h q (by simp [hq]))]
    rfl

theorem foldl_odSet_append {α β : Type} [DecidableEq α] (m d : List (α × β))
    (hdisj : ∀ k ∈ m.map Prod.fst, k ∉ d.map Prod.fst)
    (hnodup : (m.map Prod.fst).Nodup) :
    m.foldl (fun d kv => odSet d kv.1 kv.2) d = d ++ m := by
  induction m generalizing d with
  | nil => simp
  | cons kv rest ih =>
    rw [List.foldl_cons]
    have hnotin : kv.1 ∉ d.map Prod.fst := hdisj kv.1 (by simp)
    have hstep : odSet d kv.1 kv.2 = d ++ [(kv.1, kv.2)] := by
      unfold odSet
      rw [if_neg hnotin]
    rw [hstep, ih]
    · simp
    · intro j hj
      have hj' : j ∈ (kv :: rest).map Prod.fst := by simp [hj]
      intro hcon
      rcases List.mem_map.mp hcon with ⟨q, hq, hqfst⟩
      rcases List.mem_append.mp hq with hin | hone
      · exact hdisj j hj' (List.mem_map.mpr ⟨q, hin, hqfst⟩)
      · simp at hone
        rw [List.map_cons] at hnodup
        have := (List.nodup_cons.mp hnodup).1
        apply this
        rw [← hone, hqfst]
        exact hj
    · exact (List.nodup_cons.mp (List.map_cons Prod.fst kv rest ▸ hnodup)).2

theorem odOfList_nodup {α β : Type} [DecidableEq α] (m : List (α × β))
    (h : (m.map Prod.fst).Nodup) : odOfList m = m := by
  unfold odOfList
  rw [foldl_odSet_append m [] (by simp) h]
  rfl

/-- `OPTCRE` on a written key line: the option group is the key plus its
space padding, the delimiter is the written `=`, the value is the rest with
leading whitespace dropped. -/
theorem optLine_key (c : Char) (krest pad tail0 : PyStr)
    (hc1 : c ≠ ':') (hc2 : c ≠ '=') (hc3 : isPySpace c = false)
    (hall : ∀ x ∈ krest ++ pad, x ≠ ':' ∧ x ≠ '=') :
    optLine (c :: (krest ++ (pad ++ '=' :: tail0))) =
      some (c :: (krest ++ pad), '=', tail0.dropWhile isPySpace) := by
  have hassoc : krest ++ (pad ++ '=' :: tail0) = (krest ++ pad) ++ '=' :: tail0 :=
    (List.append_assoc ..).symm
  rw [hassoc]
  rw [optLine]
  rw [if_neg (by simp [hc1, hc2, hc3])]
  have htw : ((krest ++ pad) ++ '=' :: tail0).takeWhile
      (fun x => decide (x ≠ ':' ∧ x ≠ '=')) = krest ++ pad :=
    takeWhile_append_stop _ _ '=' _
      (fun x hx => by simp [(hall x hx).1, (hall x hx).2]) (by simp)
  rw [htw, List.drop_left]

/-- A lowered token ending in `'='` is never `rem`. -/
theorem lower_concat_eq_ne_rem (x : PyStr) :
    lowerL (x ++ ['=']) ≠ "rem".toList := by
  intro hcon
  unfold lowerL at hcon
  rw [List.map_append, show List.map Char.toLower ['='] = ['='] from rfl] at hcon
  have hlast := congrArg List.getLast? hcon
  rw [List.getLast?_concat] at hlast
  exact absurd hlast (by decide)

/-- Processing the written key line `key.ljust(ind) ++ "= " ++ l0` inside the
current section: the option `key` is created with the single chunk `l0`. -/
theorem process_keyline (ind : Nat) (V : PyStr) (done : List (PyStr × List PyStr))
    (opt0 : Option PyStr) (k l0 : PyStr) (hgk : goodKey k)
    (hl0strip : pyStrip l0 = l0) (hl0semi : semiTrunc l0 = l0) (hl0q : l0 ≠ ['"', '"'])
    (hnotin : k ∉ done.map Prod.fst) :
    processLine ⟨[], [(V, done)], .named V, opt0, false⟩ (pyLjust k ind ++ '=' :: ' ' :: l0) =
      ⟨[], [(V, done ++ [(k, [l0])])], .named V, some k, false⟩ := by
  obtain ⟨hne, hname, hrstrip, hchars, hws, hbr, hhash, hsemic, hrem⟩ := hgk
  cases k with
  | nil => exact absurd rfl hne
  | cons c k' =>
  simp only [List.headD_cons] at hws hbr hhash hsemic hrem
  have hline : pyLjust (c :: k') ind ++ '=' :: ' ' :: l0 =
      c :: (k' ++ (List.replicate (ind - (c :: k').length) ' ' ++ '=' :: ' ' :: l0)) := by
    unfold pyLjust
    simp [List.append_assoc]
  rw [hline]
  set pad : PyStr := List.replicate (ind - (c :: k').length) ' ' with hpad
  have hpadws : ∀ x ∈ pad, isPySpace x = true := by
    intro x hx
    rw [List.eq_of_mem_replicate
      (show x ∈ List.replicate (ind - (c :: k').length) ' ' from hx)]
    rfl
  have hcchars := hchars c (by simp)
  have hk'chars : ∀ x ∈ k', x ≠ ':' ∧ x ≠ '=' ∧ x ≠ '\n' :=
    fun x hx => hchars x (by simp [hx])
  have hstrip_ne : ¬ pyStrip (c :: (k' ++ (pad ++ '=' :: ' ' :: l0))) = [] :=
    pyStrip_cons_ne_nil c _ hws
  have hremline : ¬((c = 'r' ∨ c = 'R') ∧
      lowerL (firstToken (c :: (k' ++ (pad ++ '=' :: ' ' :: l0)))) = "rem".toList) := by
    rintro ⟨hrR, htok⟩
    have hdropline : firstToken (c :: (k' ++ (pad ++ '=' :: ' ' :: l0))) =
        (c :: (k' ++ (pad ++ '=' :: ' ' :: l0))).takeWhile (fun x => !isPySpace x) := by
      unfold firstToken
      rw [List.dropWhile_cons, hws]
      rfl
    have hdropk : firstToken ((c :: k') ++ [' ']) =
        ((c :: k') ++ [' ']).takeWhile (fun x => !isPySpace x) := by
      unfold firstToken
      rw [List.cons_append, List.dropWhile_cons, hws]
      rfl
    by_cases hk'ws : ∃ x ∈ k', isPySpace x = true
    · obtain ⟨x, hx, hxws⟩ := hk'ws
      have h1 : (c :: (k' ++ (pad ++ '=' :: ' ' :: l0))).takeWhile (fun x => !isPySpace x) =
          c :: k'.takeWhile (fun x => !isPySpace x) := by
        rw [List.takeWhile_cons, hws]
        rw [takeWhile_append_of_stop_mem _ _ _ ⟨x, hx, by simp [hxws]⟩]
        rfl
      have h2 : ((c :: k') ++ [' ']).takeWhile (fun x => !isPySpace x) =
          c :: k'.takeWhile (fun x => !isPySpace x) := by
        rw [List.cons_append, List.takeWhile_cons, hws]
        rw [takeWhile_append_of_stop_mem _ _ _ ⟨x, hx, by simp [hxws]⟩]
        rfl
      exact hrem ⟨hrR, by rw [hdropk, h2, ← h1, ← hdropline]; exact htok⟩
    · push_neg at hk'ws
      have hk'nws : ∀ x ∈ k', (fun x => !isPySpace x) x = true := by
        intro x hx
        have := hk'ws x hx
        simp only [Bool.not_eq_true] at this
        simp [this]
      by_cases hpadnil : pad = []
      · have h1 : (c :: (k' ++ (pad ++ '=' :: ' ' :: l0))).takeWhile (fun x => !isPySpace x) =
            c :: (k' ++ ['=']) := by
          rw [hpadnil, List.nil_append, List.takeWhile_cons, hws]
          show c :: (k' ++ '=' :: ' ' :: l0).takeWhile (fun x => !isPySpace x) = _
          rw [takeWhile_append_all _ _ _ hk'nws,
            show ('=' :: ' ' :: l0).takeWhile (fun x => !isPySpace x) = ['='] from by
              rw [List.takeWhile_cons, if_pos (show (!isPySpace '=') = true from by decide),
                List.takeWhile_cons,
                if_neg (show ¬(!isPySpace ' ') = true from by decide)]]
        rw [hdropline, h1] at htok
        have : lowerL ((c :: k') ++ ['=']) = "rem".toList := by
          rw [List.cons_append]
          exact htok
        exact lower_concat_eq_ne_rem (c :: k') this
      · obtain ⟨m, hm⟩ : ∃ m, pad = ' ' :: List.replicate m ' ' := by
          cases hmm : ind - (c :: k').length with
          | zero => exact absurd (by rw [hpad, hmm]; rfl) hpadnil
          | succ m => exact ⟨m, by rw [hpad, hmm]; rfl⟩
        have h1 : (c :: (k' ++ (pad ++ '=' :: ' ' :: l0))).takeWhile (fun x => !isPySpace x) =
            c :: k' := by
          rw [List.takeWhile_cons, hws, hm]
          show c :: (k' ++ (' ' :: (List.replicate m ' ' ++ '=' :: ' ' :: l0))).takeWhile
            (fun x => !isPySpace x) = _
          rw [takeWhile_append_stop _ _ ' ' _ hk'nws (by decide)]
        have h2 : ((c :: k') ++ [' ']).takeWhile (fun x => !isPySpace x) = c :: k' := by
          rw [List.cons_append, List.takeWhile_cons, hws]
          show c :: (k' ++ [' ']).takeWhile (fun x => !isPySpace x) = _
          rw [takeWhile_append_stop _ _ ' ' _ hk'nws (by decide)]
        exact hrem ⟨hrR, by rw [hdropk, h2, ← h1, ← hdropline]; exact htok⟩
  unfold processLine
  rw [if_neg hstrip_ne]
  rw [List.headD_cons]
  rw [if_neg (by simp [hhash, hsemic])]
  rw [if_neg hremline]
  rw [if_neg (by simp [hws])]
  unfold readOther
  rw [sectHeader_not_bracket c _ hbr]
  show (if (Cursect.named V) = Cursect.nosect then _ else _) = _
  rw [if_neg (by simp)]
  have hopt : optLine (c :: (k' ++ (pad ++ '=' :: ' ' :: l0))) =
      some (c :: (k' ++ pad), '=', (' ' :: l0).dropWhile isPySpace) :=
    optLine_key c k' pad (' ' :: l0) hcchars.1 hcchars.2.1 hws
      (fun x hx => by
        rcases List.mem_append.mp hx with h | h
        · exact ⟨(hk'chars x h).1, (hk'chars x h).2.1⟩
        · have hxsp := List.eq_of_mem_replicate
            (show x ∈ List.replicate (ind - (c :: k').length) ' ' from h)
          subst hxsp
          exact ⟨by decide, by decide⟩)
  rw [hopt]
  have hval : (' ' :: l0).dropWhile isPySpace = l0 := by
    rw [List.dropWhile_cons, if_pos (show isPySpace ' ' = true from by decide)]
    exact lstrip_of_strip_fixed hl0strip
  show setOption _ (pyRstrip (c :: (k' ++ pad))) (procVal '=' ((' ' :: l0).dropWhile isPySpace)) = _
  rw [hval]
  have hrs : pyRstrip (c :: (k' ++ pad)) = c :: k' := by
    show pyRstrip ((c :: k') ++ pad) = c :: k'
    rw [hpad, pyRstrip_append_spaces]
    exact hrstrip
  rw [hrs]
  have hpv : procVal '=' l0 = l0 := by
    have hinner : (if ('=' : Char) = '=' ∨ ('=' : Char) = ':' then semiTrunc l0 else l0) = l0 := by
      rw [if_pos (Or.inl rfl), hl0semi]
    unfold procVal
    rw [hinner, hl0strip, if_neg hl0q]
  rw [hpv]
  unfold setOption
  show CPState.mk _ ([(V, done)].map _) _ _ _ = _
  simp only [List.map_cons, List.map_nil, if_pos rfl]
  have hset : odSet done (c :: k') [l0] = done ++ [(c :: k', [l0])] := by
    unfold odSet
    rw [if_neg hnotin]
  rw [hset]
  simp

/-- Processing one written continuation line: the stripped value is appended
to the current option's chunk list. -/
theorem process_contline (ind : Nat) (V : PyStr) (done : List (PyStr × List PyStr))
    (k li : PyStr) (chs : List PyStr)
    (hli : li ≠ []) (hlistrip : pyStrip li = li)
    (hnotin : k ∉ done.map Prod.fst) :
    processLine ⟨[], [(V, done ++ [(k, chs)])], .named V, some k, false⟩
        (List.replicate (ind + 2) ' ' ++ li) =
      ⟨[], [(V, done ++ [(k, chs ++ [li])])], .named V, some k, false⟩ := by
  have hline : List.replicate (ind + 2) ' ' ++ li = ' ' :: (List.replicate (ind + 1) ' ' ++ li) := by
    rw [List.replicate_succ, List.cons_append]
  have hstrip : pyStrip (List.replicate (ind + 2) ' ' ++ li) = li :=
    pyStrip_pad_append _ _ hlistrip
  rw [hline] at hstrip ⊢
  unfold processLine
  rw [hstrip]
  rw [if_neg hli]
  rw [List.headD_cons]
  rw [if_neg (by decide : ¬((' ' : Char) = '#' ∨ (' ' : Char) = ';'))]
  rw [if_neg (show ¬(((' ' : Char) = 'r' ∨ (' ' : Char) = 'R') ∧
      lowerL (firstToken (' ' :: (List.replicate (ind + 1) ' ' ++ li))) = "rem".toList) from
    fun hcon => by rcases hcon with ⟨h | h, _⟩ <;> exact absurd h (by decide))]
  rw [if_pos ⟨(by decide : isPySpace ' ' = true), by simp, by simp⟩]
  rw [if_neg hli]
  show addChunk _ ((some k).getD []) li = _
  unfold addChunk
  simp only [Option.getD_some, List.map_cons, List.map_nil, if_pos rfl]
  rw [List.map_append]
  rw [map_eq_self_of_fix done _ (fun p hp => by
    have hpk : p.1 ≠ k := fun hcon => hnotin (hcon ▸ List.mem_map_of_mem Prod.fst hp)
    rw [if_neg hpk])]
  simp

/-- Processing all continuation lines of a value appends its remaining
pieces, in order, to the option's chunks. -/
theorem process_contlines (ind : Nat) (V : PyStr) (done : List (PyStr × List PyStr))
    (k : PyStr) (hnotin : k ∉ done.map Prod.fst) :
    ∀ (rest : List PyStr) (chs : List PyStr),
    (∀ li ∈ rest, li ≠ [] ∧ pyStrip li = li) →
    (rest.map (fun li => List.replicate (ind + 2) ' ' ++ li)).foldl processLine
        ⟨[], [(V, done ++ [(k, chs)])], .named V, some k, false⟩ =
      ⟨[], [(V, done ++ [(k, chs ++ rest)])], .named V, some k, false⟩ := by
  intro rest
  induction rest with
  | nil =>
    intro chs _
    simp
  | cons li rest' ih =>
    intro chs hrest
    rw [List.map_cons, List.foldl_cons,
      process_contline ind V done k li chs (hrest li (by simp)).1 (hrest li (by simp)).2 hnotin,
      ih (chs ++ [li]) (fun q hq => hrest q (by simp [hq]))]
    simp

/-- Processing the emitted lines of one key/value pair: the pair is recorded
with its value's pieces as chunks. -/
theorem process_item (ind : Nat) (V : PyStr) (done : List (PyStr × List PyStr))
    (opt0 : Option PyStr) (kv : PyStr × PyStr)
    (hgk : goodKey kv.1) (hgv : goodVal kv.2)
    (hnotin : kv.1 ∉ done.map Prod.fst) :
    (itemLines ind kv).foldl processLine ⟨[], [(V, done)], .named V, opt0, false⟩ =
      ⟨[], [(V, done ++ [(kv.1, splitNL kv.2)])], .named V, some kv.1, false⟩ := by
  obtain ⟨hv1, hv2, hv3, hv4⟩ := hgv
  unfold itemLines
  rw [List.foldl_cons,
    process_keyline ind V done opt0 kv.1 ((splitNL kv.2).headD []) hgk hv1 hv2 hv3 hnotin,
    process_contlines ind V done kv.1 hnotin ((splitNL kv.2).tail) [(splitNL kv.2).headD []] hv4]
  have hsplit : (splitNL kv.2).headD [] :: (splitNL kv.2).tail = splitNL kv.2 := by
    cases h : splitNL kv.2 with
    | nil => exact absurd h (splitNL_ne_nil _)
    | cons x xs => simp
  rw [show [(splitNL kv.2).headD []] ++ (splitNL kv.2).tail =
    (splitNL kv.2).headD [] :: (splitNL kv.2).tail from rfl, hsplit]

/-- Processing the emitted lines of a whole manifest. -/
theorem process_items (ind : Nat) (V : PyStr) :
    ∀ (M : List (PyStr × PyStr)) (done : List (PyStr × List PyStr)) (opt0 : Option PyStr),
    (∀ kv ∈ M, goodKey kv.1 ∧ goodVal kv.2) →
    (M.map Prod.fst).Nodup →
    (∀ j ∈ M.map Prod.fst, j ∉ done.map Prod.fst) →
    ∃ opt1, (M.flatMap (itemLines ind)).foldl processLine
        ⟨[], [(V, done)], .named V, opt0, false⟩ =
      ⟨[], [(V, done ++ M.map (fun kv => (kv.1, splitNL kv.2)))], .named V, opt1, false⟩ := by
  intro M
  induction M with
  | nil =>
    intro done opt0 _ _ _
    exact ⟨opt0, by simp⟩
  | cons kv rest ih =>
    intro done opt0 hgood hnodup hdisj
    rw [List.flatMap_cons, List.foldl_append,
      process_item ind V done opt0 kv (hgood kv (by simp)).1 (hgood kv (by simp)).2
        (hdisj kv.1 (by simp))]
    obtain ⟨opt1, h⟩ := ih (done ++ [(kv.1, splitNL kv.2)]) (some kv.1)
      (fun q hq => hgood q (by simp [hq]))
      ((List.nodup_cons.mp (List.map_cons Prod.fst kv rest ▸ hnodup)).2)
      (fun j hj => by
        intro hcon
        rw [List.map_append] at hcon
        rcases List.mem_append.mp hcon with h | h
        · exact hdisj j (by simp [hj]) h
        · simp at h
          rw [List.map_cons] at hnodup
          exact (List.nodup_cons.mp hnodup).1 (h ▸ hj))
    refine ⟨opt1, ?_⟩
    rw [h]
    simp [List.append_assoc]

theorem headD_mem {α : Type} (l : List α) (d : α) (h : l ≠ []) : l.headD d ∈ l := by
  cases l with
  | nil => exact absurd rfl h
  | cons x xs => simp

/-- `'\n'.ljust(ind + 3)` is a newline followed by `ind + 2` spaces. -/
theorem pad_rep (ind : Nat) : pyLjust ['\n'] (ind + 3) = '\n' :: List.replicate (ind + 2) ' ' := by
  unfold pyLjust
  simp

theorem itemLines_no_nl (ind : Nat) (kv : PyStr × PyStr) (hgk : goodKey kv.1) (l : PyStr)
    (hl : l ∈ itemLines ind kv) : '\n' ∉ l := by
  unfold itemLines at hl
  rcases List.mem_cons.mp hl with rfl | hl'
  · intro hcon
    rcases List.mem_append.mp hcon with h | h
    · rcases List.mem_append.mp h with h | h
      · exact (hgk.2.2.2.1 _ h).2.2 rfl
      · exact absurd (List.eq_of_mem_replicate h) (by decide)
    · rcases List.mem_cons.mp h with h | h
      · exact absurd h (by decide)
      rcases List.mem_cons.mp h with h | h
      · exact absurd h (by decide)
      · exact mem_splitNL_no_nl kv.2 _ (headD_mem _ _ (splitNL_ne_nil kv.2)) h
  · obtain ⟨li, hli, rfl⟩ := List.mem_map.mp hl'
    intro hcon
    rcases List.mem_append.mp hcon with h | h
    · exact absurd (List.eq_of_mem_replicate h) (by decide)
    · exact mem_splitNL_no_nl kv.2 li (List.mem_of_mem_tail hli) h

/-- The newline-replacement on a value, followed by the closing newline,
spells out exactly the value's physical lines. -/
theorem replace_pieces (pad2 : PyStr) :
    ∀ (pieces : List PyStr), pieces ≠ [] → (∀ p ∈ pieces, '\n' ∉ p) →
    replaceChar '\n' ('\n' :: pad2) (joinNL pieces) ++ ['\n'] =
      (pieces.headD [] ++ ['\n']) ++
        (pieces.tail.map (fun li => pad2 ++ li)).flatMap (fun l => l ++ ['\n']) := by
  intro pieces
  induction pieces with
  | nil => intro h _; exact absurd rfl h
  | cons x rest ih =>
    intro _ hnl
    cases rest with
    | nil =>
      show replaceChar '\n' ('\n' :: pad2) x ++ ['\n'] = (x ++ ['\n']) ++ _
      rw [replaceChar_no_occur _ _ x (hnl x (by simp))]
      simp
    | cons y t =>
      show replaceChar '\n' ('\n' :: pad2) (x ++ '\n' :: joinNL (y :: t)) ++ ['\n'] = _
      rw [replaceChar_append, replaceChar_no_occur _ _ x (hnl x (by simp))]
      rw [show replaceChar '\n' ('\n' :: pad2) ('\n' :: joinNL (y :: t)) =
        ('\n' :: pad2) ++ replaceChar '\n' ('\n' :: pad2) (joinNL (y :: t)) from by
          unfold replaceChar
          rw [List.flatMap_cons, if_pos rfl]]
      have ihy := ih (by simp) (fun q hq => hnl q (by simp [hq]))
      simp only [List.headD_cons, List.tail_cons, List.cons_append, List.append_assoc,
        List.singleton_append, List.map_cons, List.flatMap_cons, List.nil_append] at ihy ⊢
      rw [ihy]

/-- One item's written chunk is its `itemLines`, each closed by a newline. -/
theorem item_chunk_eq (ind : Nat) (kv : PyStr × PyStr)
    (hgk : goodKey kv.1) (_hgv : goodVal kv.2) :
    (if kv.1 = "__name__".toList then []
      else pyLjust kv.1 ind ++ '=' :: ' ' ::
        replaceChar '\n' (pyLjust ['\n'] (ind + 3)) kv.2 ++ ['\n']) =
      (itemLines ind kv).flatMap (fun l => l ++ ['\n']) := by
  rw [if_neg hgk.2.1]
  unfold itemLines
  rw [List.flatMap_cons]
  have hrp := replace_pieces (List.replicate (ind + 2) ' ') (splitNL kv.2)
    (splitNL_ne_nil _) (fun p hp => mem_splitNL_no_nl _ p hp)
  rw [joinNL_splitNL] at hrp
  rw [pad_rep]
  simp only [List.append_assoc, List.cons_append]
  rw [hrp]
  simp [List.append_assoc]

/-- `write_section` emits exactly the header line and the item lines, each
terminated by a newline. -/
theorem write_section_decomp (ind : Nat) (sec : PyStr) (M : List (PyStr × PyStr))
    (hgood : ∀ kv ∈ M, goodKey kv.1 ∧ goodVal kv.2) :
    write_section ind sec M =
      (('[' :: (sec ++ [']'])) :: M.flatMap (itemLines ind)).flatMap (fun l => l ++ ['\n']) := by
  unfold write_section
  rw [List.flatMap_cons]
  have hbody : ∀ (N : List (PyStr × PyStr)), (∀ kv ∈ N, goodKey kv.1 ∧ goodVal kv.2) →
      N.flatMap (fun kv =>
        if kv.1 = "__name__".toList then []
        else pyLjust kv.1 ind ++ '=' :: ' ' ::
          replaceChar '\n' (pyLjust ['\n'] (ind + 3)) kv.2 ++ ['\n']) =
      (N.flatMap (itemLines ind)).flatMap (fun l => l ++ ['\n']) := by
    intro N
    induction N with
    | nil => intro _; rfl
    | cons kv rest ihn =>
      intro hN
      rw [List.flatMap_cons, List.flatMap_cons, List.flatMap_append,
        item_chunk_eq ind kv (hN kv (by simp)).1 (hN kv (by simp)).2,
        ihn (fun q hq => hN q (by simp [hq]))]
  rw [hbody M hgood]
  simp [List.append_assoc]

theorem config_read_eq (lines : List PyStr) (st : CPState)
    (h : lines.foldl processLine ⟨[], [], .nosect, none, false⟩ = st) :
    config_read lines = if st.err then Except.error () else
      Except.ok (st.sections.map (fun s => (s.1, s.2.map (fun p => (p.1, joinNL p.2))))) := by
  unfold config_read
  rw [h]

theorem config_read_defaults_eq (lines : List PyStr) (st : CPState)
    (h : lines.foldl processLine ⟨[], [], .nosect, none, false⟩ = st) :
    config_read_defaults lines = st.defaults.map (fun p => (p.1, joinNL p.2)) := by
  unfold config_read_defaults
  rw [h]

/-- Claim C6 (amended): for a manifest with well-formed keys (`goodKey`),
well-formed values (`goodVal`) and pairwise-distinct keys, parsing the text
produced by `write_section` yields exactly the manifest back: same keys, with
case preserved, and same values, including multi-line values whose
continuation-line indentation is removed again on re-parse. -/
theorem write_parse_roundtrip (ind : Nat) (M : List (PyStr × PyStr))
    (hgood : ∀ kv ∈ M, goodKey kv.1 ∧ goodVal kv.2)
    (hnodup : (M.map Prod.fst).Nodup) :
    parse_versions (some (write_section ind ("versions".toList) M)) = Except.ok M := by
  have hlines : splitNL (write_section ind ("versions".toList) M) =
      ('[' :: ("versions".toList ++ [']'])) :: (M.flatMap (itemLines ind) ++ [[]]) := by
    rw [write_section_decomp ind _ M hgood, splitNL_joinLines]
    · simp
    · intro l hl
      rcases List.mem_cons.mp hl with rfl | hl'
      · intro hcon
        rcases List.mem_cons.mp hcon with h | h
        · cases h
        · rcases List.mem_append.mp h with h | h
          · revert h
            decide
          · simp at h
      · obtain ⟨kv, hkv, hlkv⟩ := List.mem_flatMap.mp hl'
        exact itemLines_no_nl ind kv (hgood kv hkv).1 l hlkv
  obtain ⟨opt1, hitems⟩ := process_items ind ("versions".toList) M [] none hgood hnodup
    (by simp)
  have hfold : (splitNL (write_section ind ("versions".toList) M)).foldl processLine
      ⟨[], [], .nosect, none, false⟩ =
      ⟨[], [("versions".toList, M.map (fun kv => (kv.1, splitNL kv.2)))],
        .named ("versions".toList), opt1, false⟩ := by
    rw [hlines, List.foldl_cons]
    rw [show processLine ⟨[], [], .nosect, none, false⟩
        ('[' :: ("versions".toList ++ [']'])) =
      ⟨[], [("versions".toList, [])], .named ("versions".toList), none, false⟩ from by decide]
    rw [List.foldl_append, hitems, List.foldl_cons, processLine_nil, List.foldl_nil]
    simp
  have hread : config_read (splitNL (write_section ind ("versions".toList) M)) =
      Except.ok [("versions".toList, M)] := by
    rw [config_read_eq _ _ hfold]
    show Except.ok _ = _
    have hMjoin : (M.map (fun kv => (kv.1, splitNL kv.2))).map
        (fun p => (p.1, joinNL p.2)) = M := by
      rw [List.map_map]
      exact map_eq_self_of_fix M _ (fun kv _ => by
        show (kv.1, joinNL (splitNL kv.2)) = kv
        rw [joinNL_splitNL])
    simp only [List.map_cons, List.map_nil]
    rw [hMjoin]
  have hdef : config_read_defaults (splitNL (write_section ind ("versions".toList) M)) = [] := by
    rw [config_read_defaults_eq _ _ hfold]
    rfl
  have hun : parse_versions (some (write_section ind ("versions".toList) M)) =
      match config_read (splitNL (write_section ind ("versions".toList) M)) with
      | Except.error e => Except.error e
      | Except.ok sections =>
        match lookupA sections ("versions".toList) with
        | none => Except.ok []
        | some opts => Except.ok (opts.foldl (fun (d : List (PyStr × PyStr)) (kv : PyStr × PyStr) => odSet d kv.1 kv.2)
            (config_read_defaults (splitNL (write_section ind ("versions".toList) M)))) := rfl
  rw [hun, hread]
  show (match lookupA [("versions".toList, M)] ("versions".toList) with
    | none => Except.ok []
    | some opts => Except.ok (opts.foldl (fun (d : List (PyStr × PyStr)) (kv : PyStr × PyStr) => odSet d kv.1 kv.2)
        (config_read_defaults (splitNL (write_section ind ("versions".toList) M))))) = _
  rw [show lookupA [("versions".toList, M)] ("versions".toList) = some M from by
    unfold lookupA
    rw [if_pos rfl]]
  show Except.ok (M.foldl (fun (d : List (PyStr × PyStr)) (kv : PyStr × PyStr) => odSet d kv.1 kv.2)
    (config_read_defaults (splitNL (write_section ind ("versions".toList) M)))) = _
  rw [hdef]
  show Except.ok (odOfList M) = _
  rw [odOfList_nodup M hnodup]

/-- Counterexample to claim C6 as stated: the manifest value `" 1.0"` (leading
space) comes back as `"1.0"` after a write/parse round trip, because `_read`
strips option values; so parse∘serialize does not preserve all values. -/
theorem write_parse_roundtrip_cex :
    parse_versions (some (write_section 24 ("versions".toList)
        [("foo".toList, " 1.0".toList)])) =
      Except.ok [("foo".toList, "1.0".toList)] ∧
    (" 1.0".toList : PyStr) ≠ "1.0".toList :=
  ⟨rfl, by decide⟩

/-- Witness for C6 (amended) at a concrete manifest with a multi-line value. -/
theorem write_parse_roundtrip_witness :
    (∀ kv ∈ ([("foo".toList, "1.0".toList), ("bar".toList, "2.0\nextra".toList)] :
        List (PyStr × PyStr)), goodKey kv.1 ∧ goodVal kv.2) ∧
    (([("foo".toList, "1.0".toList), ("bar".toList, "2.0\nextra".toList)] :
        List (PyStr × PyStr)).map Prod.fst).Nodup ∧
    parse_versions (some (write_section 24 ("versions".toList)
        [("foo".toList, "1.0".toList), ("bar".toList, "2.0\nextra".toList)])) =
      Except.ok [("foo".toList, "1.0".toList), ("bar".toList, "2.0\nextra".toList)] :=
  ⟨by decide, by decide,
    write_parse_roundtrip 24 [("foo".toList, "1.0".toList), ("bar".toList, "2.0\nextra".toList)]
      (by decide) (by decide)⟩
